import Mathlib

/-!
Shallow embedding of the hierarchical change-list reconciliation engine of
`app/src/ui/changes/changes-list.tsx`: the tree synthesizer `getFileList`, the
visibility projector `getOpenedFilesList`, the rebuild guard of
`componentWillReceiveProps` and the expand/collapse toggle `onOpenChanged`,
together with proofs about them.

Modelling conventions:
* JavaScript objects used as string-keyed tables are modelled as association
  lists with in-place replacement on key collision (`upsertA`), matching the
  insertion-order key semantics of JS objects for non-numeric keys.
* The in-place mutation of the input change records (`f.shown = …`,
  `f.index = …`) is captured by returning the post-call record list `rfiles`
  alongside the table.
* `Array.prototype.sort` with the comparator `a.index > b.index ? 1 : -1` is
  modelled as an insertion sort on `index`; the two coincide whenever the
  `index` values are pairwise distinct, which is proved below.
-/

namespace Kactus

/-- Status kinds of a change record, mirroring `AppFileStatusKind` of
`app/src/models/status.ts` as enumerated by the spec (New | Modified | Deleted
| Renamed | Copied | Untracked | Conflicted). -/
inductive AppFileStatusKind where
  | New
  | Modified
  | Deleted
  | Renamed
  | Copied
  | Untracked
  | Conflicted
deriving DecidableEq, Repr

/-- Modelled from the spec: `AppFileStatus` (from the missing
`app/src/models/status.ts`) is a tagged variant; beyond its `kind` the real
record carries further data (e.g. conflict details), abstracted here as a
numeric payload `data` so that two statuses of the same kind remain
distinguishable. -/
structure AppFileStatus where
  kind : AppFileStatusKind
  data : Nat
deriving DecidableEq, Repr

/-- The `FileType` discriminant used for rows (`NormalFile` for plain files,
`SketchFile`/`PageFile`/`LayerFile` for synthesized part rows). -/
inductive FileType where
  | NormalFile
  | SketchFile
  | PageFile
  | LayerFile
deriving DecidableEq, Repr

/-- Modelled from the spec: `WorkingDirectoryFileChange` (declared in the
missing `app/src/models/status.ts`) as used by `changes-list.tsx`: a change
record with a unique `id`, its `path`, an optional ordered `parts` list (the
part path inside a composite sketch document), the `sketchFile` flag and its
`status`.  The fields `shown` and `index` are assigned in place by
`getFileList`; their pre-call contents are arbitrary (fresh records leave them
at their defaults). -/
structure WorkingDirectoryFileChange where
  id : String
  path : String
  parts : Option (List String)
  sketchFile : Bool
  status : AppFileStatus
  shown : Bool := false
  index : Nat := 0
deriving DecidableEq, Repr

/-- The synthesized group row `TFakeSketchPartChange` of `changes-list.tsx`
(its `fakePart : true` tag is represented by the constructor of
`TFileOrSketchPartChange` below). -/
structure TFakeSketchPartChange where
  opened : Bool
  shown : Bool
  index : Nat
  type : FileType
  id : String
  parts : List String
  name : String
  status : Option AppFileStatus
deriving DecidableEq, Repr

/-- The union `TFileOrSketchPartChange` stored in the node table. -/
inductive TFileOrSketchPartChange where
  | file : WorkingDirectoryFileChange → TFileOrSketchPartChange
  | fakePart : TFakeSketchPartChange → TFileOrSketchPartChange
deriving DecidableEq, Repr

/-- A JS object keyed by node id, as an insertion-ordered association list. -/
abbrev NodeTable := List (String × TFileOrSketchPartChange)

/-- The `fakePartsAcc` table, holding only synthesized part rows. -/
abbrev FakeTable := List (String × TFakeSketchPartChange)

/-- Lookup in a JS-object-as-association-list (first, and by the `upsertA`
invariant only, binding wins). -/
def lookupA {α : Type} : List (String × α) → String → Option α
  | [], _ => none
  | (k, v) :: rest, id => if k = id then some v else lookupA rest id

/-- Property write `obj[k] = v` on a JS object: replace in place when the key
exists, append otherwise. -/
def upsertA {α : Type} : List (String × α) → String → α → List (String × α)
  | [], id, v => [(id, v)]
  | (k, w) :: rest, id, v =>
      if k = id then (id, v) :: rest else (k, w) :: upsertA rest id v

/-- `parts.join('/')` of JavaScript. -/
def joinSlash : List String → String
  | [] => ""
  | [s] => s
  | s :: rest => s ++ "/" ++ joinSlash rest

/-- The loop state of one `getFileList` pass: the output table `acc`, the
`fakePartsAcc` side table, the mutable `parentPartChange` slot, the running
`index` counter, the processed (mutated) input records `rfiles` in input
order, and the `parts` of the previously processed change (`files[i - 1]`,
with `[]` for a missing or part-less record). -/
structure SynthSt where
  acc : NodeTable
  fakePartsAcc : FakeTable
  parentPartChange : Option TFakeSketchPartChange
  index : Nat
  rfiles : List WorkingDirectoryFileChange
  prevParts : List String
deriving DecidableEq, Repr

/-- The id of the group row synthesized for prefix-position `i` and segment
`part` of the part path `arr`:
`const parts = arr.slice(0, i); const parentId = parts.join('/');
const id = parentId ? parentId + '/' + part : part`. -/
def partIdOf (arr : List String) (i : Nat) (part : String) : String :=
  let parentId := joinSlash (arr.take i)
  if parentId ≠ "" then parentId ++ "/" ++ part else part

/-- The skip-if-unchanged branch of the `forEach` in `getFileList` (the
current segment equals the previous change's segment at the same position):
a no-op, except that a `Conflicted` change attaches its status to the
already-synthesized group at `id` when that group exists, has `fakePart:
true` and carries no status yet. -/
def partSkip (conflicted : Bool) (fstatus : AppFileStatus) (id : String)
    (st : SynthSt) : SynthSt :=
  if conflicted then
    match lookupA st.acc id with
    | some (TFileOrSketchPartChange.fakePart p) =>
      match p.status with
      | none =>
          let p' := TFileOrSketchPartChange.fakePart { p with status := some fstatus }
          { st with acc := upsertA st.acc id p' }
      | some _ => st
    | _ => st
  else st

/-- The `parentPartChange` reference in effect when the group for position
`i` of `arr` is synthesized: the incrementally tracked one, unless it is
unset or (for `i > 1`) points at a different prefix, in which case it is
re-fetched from `fakePartsAcc[parentId]`. -/
def createdPP (arr : List String) (i : Nat) (st : SynthSt) :
    Option TFakeSketchPartChange :=
  let parentId := joinSlash (arr.take i)
  if st.parentPartChange.isNone
      || (decide (1 < i) && (st.parentPartChange.map TFakeSketchPartChange.id != some parentId))
  then lookupA st.fakePartsAcc parentId
  else st.parentPartChange

/-- The `opened` flag of a group synthesized for position `i` and id `id`:
looked up from `oldList` when a group row exists there, else `i === 0`. -/
def createdOpened (oldList : Option NodeTable) (id : String) (i : Nat) : Bool :=
  match oldList.bind (fun o => lookupA o id) with
  | some (TFileOrSketchPartChange.fakePart p) => p.opened
  | _ => i == 0

/-- The group row `partChange` synthesized for position `i`, segment `part`
of part path `arr` (the object literal built in the `forEach`). -/
def createdNode (oldList : Option NodeTable) (conflicted : Bool)
    (fstatus : AppFileStatus) (arr : List String) (i : Nat) (part : String)
    (st : SynthSt) : TFakeSketchPartChange :=
  let opened := createdOpened oldList (partIdOf arr i part) i
  let pp := createdPP arr i st
  { opened := opened
    shown := opened || pp.isNone || (pp.map TFakeSketchPartChange.opened).getD false
    type := if i == 0 then FileType.SketchFile
            else if i == 1 then FileType.PageFile
            else FileType.LayerFile
    id := partIdOf arr i part
    name := part
    parts := arr.take i
    status := if conflicted then some fstatus else none
    index := st.index }

/-- The group-synthesis branch of the `forEach`: build the new group row,
store it in both tables, make it the tracked parent and advance the display
index. -/
def partCreate (oldList : Option NodeTable) (conflicted : Bool)
    (fstatus : AppFileStatus) (arr : List String) (i : Nat) (part : String)
    (st : SynthSt) : SynthSt :=
  let node := createdNode oldList conflicted fstatus arr i part st
  { st with
    acc := upsertA st.acc (partIdOf arr i part) (TFileOrSketchPartChange.fakePart node)
    fakePartsAcc := upsertA st.fakePartsAcc (partIdOf arr i part) node
    parentPartChange := some node
    index := st.index + 1 }

/-- One iteration of the `f.parts.forEach((part, i, arr) => …)` loop inside
`getFileList`: reset the tracked parent for `i <= 1`, then either the
skip-if-unchanged branch or the synthesis of a new group row. -/
def partStep (oldList : Option NodeTable) (conflicted : Bool)
    (fstatus : AppFileStatus) (prevParts arr : List String)
    (st : SynthSt) (ip : Nat × String) : SynthSt :=
  let i := ip.1
  let part := ip.2
  let st := if i ≤ 1 then { st with parentPartChange := none } else st
  let id := partIdOf arr i part
  if prevParts.get? i = some part then partSkip conflicted fstatus id st
  else partCreate oldList conflicted fstatus arr i part st

/-- Insertion of a plain file row: `f.shown = true; f.index = index;
prev[f.id] = f; index += 1` (the `else` branch of `getFileList`, also used by
the freshly-added-sketch-file special case). -/
def plainInsert (st : SynthSt) (f : WorkingDirectoryFileChange) : SynthSt :=
  let f' := { f with shown := true, index := st.index }
  { st with
    acc := upsertA st.acc f'.id (TFileOrSketchPartChange.file f')
    index := st.index + 1
    rfiles := st.rfiles ++ [f'] }

/-- The `parentPartChange` re-selection performed after the `forEach`, before
the change's own file row is inserted (`parentId` is the join of the full
part path). -/
def sketchParentAfter (ps : List String) (st1 : SynthSt) :
    Option TFakeSketchPartChange :=
  let parentId := joinSlash ps
  if st1.parentPartChange.isNone
      || (decide (1 < ps.length) && (st1.parentPartChange.map TFakeSketchPartChange.id != some parentId))
  then lookupA st1.fakePartsAcc parentId
  else if ps.length ≤ 1 then none
  else st1.parentPartChange

/-- Insertion of the file row of a grouped sketch change after its group
rows have been synthesized: `f.shown = (parentPartChange &&
parentPartChange.opened) || f.parts.length === 0 || false`. -/
def sketchFileInsert (ps : List String) (f : WorkingDirectoryFileChange)
    (st1 : SynthSt) : SynthSt :=
  let pp := sketchParentAfter ps st1
  let shown := (pp.map TFakeSketchPartChange.opened).getD false || ps.length == 0
  let f' := { f with shown := shown, index := st1.index }
  { st1 with
    parentPartChange := pp
    acc := upsertA st1.acc f'.id (TFileOrSketchPartChange.file f')
    index := st1.index + 1
    rfiles := st1.rfiles ++ [f'] }

/-- One iteration of the `files.reduce` in `getFileList`, processing one
change record. -/
def stepFile (oldList : Option NodeTable) (st : SynthSt)
    (f : WorkingDirectoryFileChange) : SynthSt :=
  let st' :=
    match f.parts with
    | some ps =>
      if f.sketchFile then
        if ps.length == 1 && (ps.headD "" ++ "/") == f.path then
          plainInsert st f
        else
          let conflicted := f.status.kind == AppFileStatusKind.Conflicted
          let st1 := ps.enum.foldl (partStep oldList conflicted f.status st.prevParts ps) st
          sketchFileInsert ps f st1
      else plainInsert st f
    | none => plainInsert st f
  { st' with prevParts := f.parts.getD [] }

/-- The initial reducer state of `getFileList`. -/
def initialSynthSt : SynthSt :=
  { acc := []
    fakePartsAcc := []
    parentPartChange := none
    index := 0
    rfiles := []
    prevParts := [] }

/-- `getFileList(files, oldList)`: one synthesis pass.  The real function
returns `acc`; the whole final reducer state is returned here so that the
side effects on the input records (`rfiles`) and the `fakePartsAcc` table are
also observable. -/
def getFileList (files : List WorkingDirectoryFileChange)
    (oldList : Option NodeTable) : SynthSt :=
  files.foldl (stepFile oldList) initialSynthSt

/-- The `shown` flag of a stored node. -/
def nodeShown : TFileOrSketchPartChange → Bool
  | TFileOrSketchPartChange.file f => f.shown
  | TFileOrSketchPartChange.fakePart p => p.shown

/-- The `index` (display index) of a stored node. -/
def nodeIndex : TFileOrSketchPartChange → Nat
  | TFileOrSketchPartChange.file f => f.index
  | TFileOrSketchPartChange.fakePart p => p.index

/-- Insert a node into a list sorted by ascending `index`. -/
def insertByIndex (n : TFileOrSketchPartChange) :
    List TFileOrSketchPartChange → List TFileOrSketchPartChange
  | [] => [n]
  | m :: ms =>
      if nodeIndex n ≤ nodeIndex m then n :: m :: ms else m :: insertByIndex n ms

/-- Sort a node list by ascending `index` (insertion sort; agrees with the
source's comparator sort whenever the indices are pairwise distinct). -/
def sortByIndex (l : List TFileOrSketchPartChange) : List TFileOrSketchPartChange :=
  l.foldr insertByIndex []

/-- `getOpenedFilesList(files)`: the visibility projector.  Takes the table
values, keeps the `shown` ones and orders them by `index`. -/
def getOpenedFilesList (files : NodeTable) : List TFileOrSketchPartChange :=
  sortByIndex ((files.map Prod.snd).filter nodeShown)

/-- `onOpenChanged(id, opened)` of the `ChangesList` component, acting on the
current table `stateFiles` with the current working-directory change list
`wdFiles`.  Returns the new table, or `none` when the lookup `files[id]`
yields `undefined` and the access `files[id].fakePart` throws a `TypeError`. -/
def onOpenChanged (stateFiles : NodeTable)
    (wdFiles : List WorkingDirectoryFileChange) (id : String) (opened : Bool) :
    Option NodeTable :=
  match lookupA stateFiles id with
  | none => none
  | some (TFileOrSketchPartChange.file _) => some stateFiles
  | some (TFileOrSketchPartChange.fakePart p) =>
      some (getFileList wdFiles
        (some (upsertA stateFiles id
          (TFileOrSketchPartChange.fakePart { p with opened := opened })))).acc

/-- Modelled from the spec: `arrayEquals` of the missing
`app/src/lib/equality.ts` — element-wise equality of two arrays. -/
def arrayEquals (a b : List String) : Bool := a == b

/-- The props of `ChangesList` that `componentWillReceiveProps` consults: the
working-directory change list and the three active selection identifiers. -/
structure ChangesListProps where
  workingDirectoryFiles : List WorkingDirectoryFileChange
  selectedFileIDs : List String
  selectedSketchFileID : Option String
  selectedSketchPartID : Option String
deriving DecidableEq, Repr

/-- Whether any of the three selection identifiers differs between the
current and the next props (the guard condition of
`componentWillReceiveProps`). -/
def selectionChanged (props nextProps : ChangesListProps) : Bool :=
  !(arrayEquals nextProps.selectedFileIDs props.selectedFileIDs)
    || (nextProps.selectedSketchFileID != props.selectedSketchFileID)
    || (nextProps.selectedSketchPartID != props.selectedSketchPartID)

/-- `componentWillReceiveProps(nextProps)`: returns the component's new
`state.files` table given the current table and the current/next props.  The
source returns early — keeping the old table — when the selection identifiers
differ, and otherwise re-runs `getFileList` over the next props' change list
with the current table as `oldList`. -/
def componentWillReceiveProps (stateFiles : NodeTable)
    (props nextProps : ChangesListProps) : NodeTable :=
  if selectionChanged props nextProps then stateFiles
  else (getFileList nextProps.workingDirectoryFiles (some stateFiles)).acc

/-! ### Derived observations used by the theorems -/

/-- The fields of a change record that `getFileList` never writes (everything
except the in-place-assigned `shown` and `index`). -/
def recordCore (f : WorkingDirectoryFileChange) :
    String × String × Option (List String) × Bool × AppFileStatus :=
  (f.id, f.path, f.parts, f.sketchFile, f.status)

/-- The display indices of all nodes stored in a table, in storage order. -/
def indicesOf (t : NodeTable) : List Nat :=
  t.map (fun kv => nodeIndex kv.2)

/-- The `status` field of a stored node (`undefined` on file rows never
matters to the synthesizer, so only group rows report one). -/
def nodeStatus : TFileOrSketchPartChange → Option AppFileStatus
  | TFileOrSketchPartChange.file _ => none
  | TFileOrSketchPartChange.fakePart p => p.status

/-- The `opened` flag visible to a `getFileList` pass that receives table `t`
as its `oldList`: the source reads `oldList[id].opened` only when the entry
exists and has `fakePart: true`. -/
def lookupOpened (t : NodeTable) (id : String) : Option Bool :=
  match lookupA t id with
  | some (TFileOrSketchPartChange.fakePart p) => some p.opened
  | _ => none

/-- The `opened` lookup rule of the synthesizer for a group with id `id`
whose final `parts` field is `parts`: the previous table's value when that
table holds a group row at `id`, else open exactly for depth-0 groups
(`i === 0`, equivalently `parts = []`). -/
def openedRule (oldList : Option NodeTable) (id : String)
    (g : TFakeSketchPartChange) : Prop :=
  g.opened = (match (oldList.bind (fun o => lookupA o id)) with
    | some (TFileOrSketchPartChange.fakePart h) => h.opened
    | _ => g.parts == [])

/-- Every part-path segment of every record in the list is a nonempty
string. -/
abbrev allPartsNonempty (files : List WorkingDirectoryFileChange) : Prop :=
  ∀ f ∈ files, ∀ p ∈ f.parts.getD [], p ≠ ""

/-! ### Relations and predicates used by the toggle/rebuild theorems -/

/-- The `opened` value that a synthesis pass can observe in its `oldList` at
`id` (`Option`-level: `none` when the entry is absent, not a table, or not a
group row). -/
def lookupOpenedO (o : Option NodeTable) (id : String) : Option Bool :=
  match o.bind (fun t => lookupA t id) with
  | some (TFileOrSketchPartChange.fakePart p) => some p.opened
  | _ => none

/-- Boolean implication, the order `false < true` on flags. -/
def bLE (a b : Bool) : Prop := a = true → b = true

/-- Lift a relation to `Option`, requiring equal shape. -/
def optLE {α : Type} (r : α → α → Prop) : Option α → Option α → Prop
  | none, none => True
  | some a, some b => r a b
  | _, _ => False

/-- Two change records that agree except that the `shown` flag may only
grow. -/
def fileLE (f1 f2 : WorkingDirectoryFileChange) : Prop :=
  bLE f1.shown f2.shown ∧ { f1 with shown := false } = { f2 with shown := false }

/-- Two group rows that agree except that `opened` and `shown` may only
grow. -/
def fakeLE (p1 p2 : TFakeSketchPartChange) : Prop :=
  bLE p1.opened p2.opened ∧ bLE p1.shown p2.shown
    ∧ { p1 with opened := false, shown := false }
      = { p2 with opened := false, shown := false }

/-- Node-wise combination of `fileLE` and `fakeLE` (same node kind). -/
def nodeLE : TFileOrSketchPartChange → TFileOrSketchPartChange → Prop
  | TFileOrSketchPartChange.file f1, TFileOrSketchPartChange.file f2 => fileLE f1 f2
  | TFileOrSketchPartChange.fakePart p1, TFileOrSketchPartChange.fakePart p2 => fakeLE p1 p2
  | _, _ => False

/-- Two node tables with identical keys in identical order whose entries are
pointwise `nodeLE`-related. -/
def tableLE (t1 t2 : NodeTable) : Prop :=
  List.Forall₂ (fun a b => a.1 = b.1 ∧ nodeLE a.2 b.2) t1 t2

/-- The analogue of `tableLE` for the `fakePartsAcc` side table. -/
def fakeTableLE (t1 t2 : FakeTable) : Prop :=
  List.Forall₂ (fun a b => a.1 = b.1 ∧ fakeLE a.2 b.2) t1 t2

/-- Two synthesis states with identical structure whose visibility flags are
pointwise related. -/
def stLE (st1 st2 : SynthSt) : Prop :=
  tableLE st1.acc st2.acc
    ∧ fakeTableLE st1.fakePartsAcc st2.fakePartsAcc
    ∧ optLE fakeLE st1.parentPartChange st2.parentPartChange
    ∧ st1.index = st2.index
    ∧ List.Forall₂ fileLE st1.rfiles st2.rfiles
    ∧ st1.prevParts = st2.prevParts

/-- Two previous tables whose observable `opened` values are pointwise
related. -/
def oldLE (o1 o2 : Option NodeTable) : Prop :=
  ∀ id, optLE bLE (lookupOpenedO o1 id) (lookupOpenedO o2 id)

/-- The nonempty part-path prefixes (as segment lists) of one part path. -/
def prefixLists (ps : List String) : List (List String) :=
  (List.range ps.length).map (fun i => ps.take (i + 1))

/-- All nonempty part-path prefixes occurring in a change list. -/
def allPrefixLists (files : List WorkingDirectoryFileChange) : List (List String) :=
  files.flatMap (fun f => prefixLists (f.parts.getD []))

/-- Joining prefixes to ids is injective on the prefix pool `PL`: no two
distinct prefix segment-lists produce the same group id.  (True in practice
when part segments contain no `/`.) -/
abbrev unambiguousIds (PL : List (List String)) : Prop :=
  ∀ L1 ∈ PL, ∀ L2 ∈ PL, joinSlash L1 = joinSlash L2 → L1 = L2

/-- The record is well formed with respect to the prefix pool `PL`: its part
segments are nonempty, its prefixes lie in `PL`, and its id collides with no
group id derived from `PL`. -/
abbrev validFile (PL : List (List String)) (f : WorkingDirectoryFileChange) : Prop :=
  (∀ s ∈ f.parts.getD [], s ≠ "")
    ∧ (∀ L ∈ prefixLists (f.parts.getD []), L ∈ PL)
    ∧ (∀ L ∈ PL, f.id ≠ joinSlash L)

/-- The provenance record of a group row stored under `id` during a pass
with previous table `o`: its `id` field matches its key, its key is the join
of a nonempty prefix from the pool whose front is its `parts` field, and its
`opened` flag obeys the lookup rule. -/
def ruleFake (o : Option NodeTable) (PL : List (List String)) (id : String)
    (p : TFakeSketchPartChange) : Prop :=
  p.id = id
    ∧ (∃ L, L ∈ PL ∧ L ≠ [] ∧ id = joinSlash L ∧ p.parts = L.dropLast)
    ∧ p.opened = (lookupOpenedO o id).getD (p.parts == [])

/-- The run invariant used for the idempotence proof: every `fakePartsAcc`
entry carries its provenance, and is mirrored in `acc` by a group row with
the same `opened` flag. -/
def fakeInv (o : Option NodeTable) (PL : List (List String)) (st : SynthSt) : Prop :=
  (∀ id p, lookupA st.fakePartsAcc id = some p → ruleFake o PL id p)
    ∧ (∀ id p, lookupA st.fakePartsAcc id = some p →
        ∃ q, lookupA st.acc id = some (TFileOrSketchPartChange.fakePart q)
          ∧ q.opened = p.opened)

/-- The C6 invariant: the stored display indices are pairwise distinct and
all lie strictly below the running counter. -/
def indexInv (st : SynthSt) : Prop :=
  (indicesOf st.acc).Nodup ∧ ∀ x ∈ indicesOf st.acc, x < st.index

/-- The C5 invariant of a table: every stored group row's `opened` flag obeys
the previous-table lookup rule. -/
def accOpenedInv (o : Option NodeTable) (t : NodeTable) : Prop :=
  ∀ id g, lookupA t id = some (TFileOrSketchPartChange.fakePart g) → openedRule o id g

/-- The C1 invariant: every stored group row is `shown` when it is itself
`opened` or when it is a depth-0 group; and no group row is keyed by the
empty id. -/
def shownInv (st : SynthSt) : Prop :=
  (∀ id g, lookupA st.acc id = some (TFileOrSketchPartChange.fakePart g) →
    (g.opened = true → g.shown = true) ∧ (g.parts = [] → g.shown = true))
    ∧ lookupA st.fakePartsAcc "" = none

/-! ### Concrete inputs used by witnesses and counterexamples -/

/-- A plain `Modified` status for example records. -/
def stMod : AppFileStatus := { kind := AppFileStatusKind.Modified, data := 0 }

/-- A sketch-part change with parts `["a", "b"]`. -/
def exFileAB : WorkingDirectoryFileChange :=
  { id := "fab", path := "a/pages/b.json", parts := some ["a", "b"],
    sketchFile := true, status := stMod }

/-- A previous table in which the depth-0 group `a` is collapsed while the
depth-1 group `a/b` is expanded (reachable by toggling `a/b` open and then
`a` closed). -/
def exOldClosedParent : NodeTable :=
  [("a", TFileOrSketchPartChange.fakePart
      { opened := false, shown := true, index := 0, type := FileType.SketchFile,
        id := "a", parts := [], name := "a", status := none }),
   ("a/b", TFileOrSketchPartChange.fakePart
      { opened := true, shown := false, index := 1, type := FileType.PageFile,
        id := "a/b", parts := ["a"], name := "b", status := none })]

/-- A plain (non-sketch) change record; `shown`/`index` still hold their
fresh defaults. -/
def exPlainFile : WorkingDirectoryFileChange :=
  { id := "readme", path := "readme.md", parts := none,
    sketchFile := false, status := stMod }

/-- Props with a non-empty file selection and no pending changes. -/
def exPropsA : ChangesListProps :=
  { workingDirectoryFiles := [], selectedFileIDs := ["f1"],
    selectedSketchFileID := none, selectedSketchPartID := none }

/-- Props with an empty selection and one pending change: versus
`exPropsA` the selection identifiers differ and the change list differs. -/
def exPropsB : ChangesListProps :=
  { workingDirectoryFiles := [exPlainFile], selectedFileIDs := [],
    selectedSketchFileID := none, selectedSketchPartID := none }

/-- The single change of the spec's Scenario B: one layer change with
`partPath = ["doc.sketch", "page1", "layer1"]`. -/
def exScenarioB : WorkingDirectoryFileChange :=
  { id := "layer1id", path := "doc.sketch/pages/page1/layer1.json",
    parts := some ["doc.sketch", "page1", "layer1"],
    sketchFile := true, status := stMod }

/-- A table holding a single file row, used to probe `onOpenChanged`. -/
def exFileTable : NodeTable :=
  [("readme", TFileOrSketchPartChange.file
      { id := "readme", path := "readme.md", parts := none,
        sketchFile := false, status := stMod, shown := true, index := 0 })]

/-- First change of the index-gap input: a sketch change with the one-segment
part path `["a"]` whose path is not `"a/"`. -/
def exGapS1 : WorkingDirectoryFileChange :=
  { id := "s1", path := "x", parts := some ["a"], sketchFile := true,
    status := stMod }

/-- Second change of the index-gap input: a plain file, so the next change no
longer shares its first part-path segment with its predecessor. -/
def exGapP2 : WorkingDirectoryFileChange :=
  { id := "p2", path := "readme.md", parts := none, sketchFile := false,
    status := stMod }

/-- Third change of the index-gap input: shares the part path `["a"]` with
`exGapS1`, so the group `a` is synthesized a second time under a fresh
index, abandoning the index it got the first time. -/
def exGapS3 : WorkingDirectoryFileChange :=
  { id := "s3", path := "y", parts := some ["a"], sketchFile := true,
    status := stMod }

/-- A non-conflicted sketch change below group `a` (parts `["a", "w"]`). -/
def exConfF0 : WorkingDirectoryFileChange :=
  { id := "f0", path := "f0", parts := some ["a", "w"], sketchFile := true,
    status := stMod }

/-- A conflicted sketch change below group `a` with conflict payload `d`
(parts `["a", "x"]`). -/
def exConfF1 (d : Nat) : WorkingDirectoryFileChange :=
  { id := "f1", path := "f1", parts := some ["a", "x"], sketchFile := true,
    status := { kind := AppFileStatusKind.Conflicted, data := d } }

/-- A second conflicted sketch change below group `a` with conflict payload
`d` (parts `["a", "y"]`). -/
def exConfF2 (d : Nat) : WorkingDirectoryFileChange :=
  { id := "f2", path := "f2", parts := some ["a", "y"], sketchFile := true,
    status := { kind := AppFileStatusKind.Conflicted, data := d } }

/-- A sketch change with the three-segment part path `["a", "b", "c"]`. -/
def exFileABC : WorkingDirectoryFileChange :=
  { id := "fabc", path := "a/x", parts := some ["a", "b", "c"],
    sketchFile := true, status := stMod }

/-- A previous table in which the nested groups `a/b` and `a/b/c` are both
expanded. -/
def exOldDeepOpen : NodeTable :=
  [("a/b", TFileOrSketchPartChange.fakePart
      { opened := true, shown := true, index := 0, type := FileType.PageFile,
        id := "a/b", parts := ["a"], name := "b", status := none }),
   ("a/b/c", TFileOrSketchPartChange.fakePart
      { opened := true, shown := true, index := 1, type := FileType.LayerFile,
        id := "a/b/c", parts := ["a", "b"], name := "c", status := none })]

/-- The table the controller holds after synthesizing `[exFileABC]` against
`exOldDeepOpen`: every group is expanded and every node visible. -/
def exDeepTable : NodeTable := (getFileList [exFileABC] (some exOldDeepOpen)).acc

/-! ## Helper lemmas about the table primitives -/

theorem lookupA_upsertA {α : Type} (t : List (String × α)) (k : String) (v : α)
    (id : String) :
    lookupA (upsertA t k v) id = if k = id then some v else lookupA t id := by
  induction t with
  | nil => simp [upsertA, lookupA]
  | cons hd tl ih =>
      obtain ⟨k', w⟩ := hd
      simp only [upsertA]
      by_cases h1 : k' = k
      · subst h1
        simp only [if_pos rfl, lookupA]
        by_cases h2 : k' = id <;> simp [h2, lookupA]
      · simp only [if_neg h1, lookupA]
        by_cases h2 : k' = id
        · subst h2
          have : ¬(k = k') := fun h => h1 h.symm
          simp [this]
        · simp [h2, ih]

theorem foldl_preserve {α β : Type} {P : α → Prop} {f : α → β → α}
    (h : ∀ a b, P a → P (f a b)) :
    ∀ (l : List β) (a : α), P a → P (l.foldl f a) := by
  intro l
  induction l with
  | nil => exact fun a ha => ha
  | cons x xs ih => exact fun a ha => ih (f a x) (h a x ha)

theorem foldl_preserve_mem {α β : Type} {P : α → Prop} {f : α → β → α}
    (Q : β → Prop) :
    ∀ (l : List β), (∀ b ∈ l, Q b) → (∀ a b, Q b → P a → P (f a b)) →
      ∀ (a : α), P a → P (l.foldl f a) := by
  intro l
  induction l with
  | nil => exact fun _ _ a ha => ha
  | cons x xs ih =>
      intro hl h a ha
      exact ih (fun b hb => hl b (List.mem_cons_of_mem x hb)) h (f a x)
        (h a x (hl x (List.mem_cons_self x xs)) ha)

/-! ## Field behavior of the synthesis steps -/

theorem partSkip_rfiles (c : Bool) (fs : AppFileStatus) (id : String)
    (st : SynthSt) : (partSkip c fs id st).rfiles = st.rfiles := by
  simp only [partSkip]
  repeat' split
  all_goals rfl

theorem partCreate_rfiles (o : Option NodeTable) (c : Bool) (fs : AppFileStatus)
    (arr : List String) (i : Nat) (part : String) (st : SynthSt) :
    (partCreate o c fs arr i part st).rfiles = st.rfiles := rfl

theorem partStep_rfiles (o : Option NodeTable) (c : Bool) (fs : AppFileStatus)
    (pv arr : List String) (st : SynthSt) (ip : Nat × String) :
    (partStep o c fs pv arr st ip).rfiles = st.rfiles := by
  simp only [partStep]
  split
  · rw [partSkip_rfiles]; split <;> rfl
  · rw [partCreate_rfiles]; split <;> rfl

theorem partSkip_prevParts (c : Bool) (fs : AppFileStatus) (id : String)
    (st : SynthSt) : (partSkip c fs id st).prevParts = st.prevParts := by
  simp only [partSkip]
  repeat' split
  all_goals rfl

theorem partCreate_prevParts (o : Option NodeTable) (c : Bool)
    (fs : AppFileStatus) (arr : List String) (i : Nat) (part : String)
    (st : SynthSt) : (partCreate o c fs arr i part st).prevParts = st.prevParts := rfl

theorem partStep_prevParts (o : Option NodeTable) (c : Bool) (fs : AppFileStatus)
    (pv arr : List String) (st : SynthSt) (ip : Nat × String) :
    (partStep o c fs pv arr st ip).prevParts = st.prevParts := by
  simp only [partStep]
  split
  · rw [partSkip_prevParts]; split <;> rfl
  · rw [partCreate_prevParts]; split <;> rfl

theorem partsFoldl_rfiles (o : Option NodeTable) (c : Bool) (fs : AppFileStatus)
    (pv arr : List String) :
    ∀ (l : List (Nat × String)) (st : SynthSt),
      (l.foldl (partStep o c fs pv arr) st).rfiles = st.rfiles := by
  intro l
  induction l with
  | nil => intro st; rfl
  | cons x xs ih => intro st; rw [List.foldl_cons, ih, partStep_rfiles]

theorem stepFile_rfiles_core (o : Option NodeTable) (st : SynthSt)
    (f : WorkingDirectoryFileChange) :
    (stepFile o st f).rfiles.map recordCore
      = st.rfiles.map recordCore ++ [recordCore f] := by
  simp only [stepFile, plainInsert, sketchFileInsert]
  repeat' split
  all_goals simp [partsFoldl_rfiles, recordCore]

/-! ## Claim theorems -/

/-- Claim C7, counterexample: `getFileList` does mutate the change records in
its input list — for a fresh plain record (whose `shown` field is still
`false`), after the call the record (also stored in the returned table) has
`shown = true` and is no longer equal to its pre-call contents. -/
theorem C7_counterexample :
    (getFileList [exPlainFile] none).rfiles ≠ [exPlainFile]
      ∧ (getFileList [exPlainFile] none).rfiles.map WorkingDirectoryFileChange.shown = [true]
      ∧ exPlainFile.shown = false := by
  refine ⟨?_, by decide, by decide⟩
  decide

/-- Claim C7, amended: one `getFileList` pass reads the previous table purely
(it is never written) and assigns only the `shown` and `index` fields of the
input change records in place; every other field of every record (`id`,
`path`, `parts`, `sketchFile`, `status`) is unchanged after the call, record
for record. -/
theorem C7_amended (files : List WorkingDirectoryFileChange)
    (oldList : Option NodeTable) :
    (getFileList files oldList).rfiles.map recordCore = files.map recordCore := by
  suffices h : ∀ (l : List WorkingDirectoryFileChange) (st : SynthSt),
      (l.foldl (stepFile oldList) st).rfiles.map recordCore
        = st.rfiles.map recordCore ++ l.map recordCore by
    simpa [getFileList, initialSynthSt] using h files initialSynthSt
  intro l
  induction l with
  | nil => intro st; simp
  | cons x xs ih =>
      intro st
      rw [List.foldl_cons, ih, stepFile_rfiles_core]
      simp

/-- Claim C2, counterexample: with selection identifiers that differ between
the current and next props (and a change list that grew from empty to one
file), `componentWillReceiveProps` keeps the stale empty table instead of
rebuilding — the opposite of the claimed "performs the rebuild when any of
them differ". -/
theorem C2_counterexample :
    selectionChanged exPropsA exPropsB = true
      ∧ componentWillReceiveProps [] exPropsA exPropsB = []
      ∧ (getFileList exPropsB.workingDirectoryFiles (some [])).acc ≠ [] := by
  exact ⟨by decide, by decide, by decide⟩

/-- Claim C2, amended: the guard of `componentWillReceiveProps` works in the
opposite direction of the claim — it skips the rebuild exactly when some
active selection identifier (selected file IDs, selected sketch-file ID,
selected sketch-part ID) differs from the current props, and re-runs the
synthesis over the next change list (with the current table as previous
state) exactly when all three are unchanged. -/
theorem C2_amended (stateFiles : NodeTable) (props nextProps : ChangesListProps) :
    (selectionChanged props nextProps = true
      → componentWillReceiveProps stateFiles props nextProps = stateFiles)
    ∧ (selectionChanged props nextProps = false
      → componentWillReceiveProps stateFiles props nextProps
          = (getFileList nextProps.workingDirectoryFiles (some stateFiles)).acc) := by
  constructor <;> intro h <;> simp [componentWillReceiveProps, h]

/-- Witness for `C2_amended` at concrete props (both branches are
exercised). -/
theorem C2_amended_witness :
    componentWillReceiveProps [] exPropsA exPropsB = []
      ∧ componentWillReceiveProps [] exPropsA exPropsA
          = (getFileList exPropsA.workingDirectoryFiles (some [])).acc :=
  ⟨(C2_amended [] exPropsA exPropsB).1 (by decide),
   (C2_amended [] exPropsA exPropsA).2 (by decide)⟩

/-- Claim C3, counterexample: for the single Scenario-B change the table
produced by `getFileList` holds four nodes (not the claimed three) and the
projection has two rows (not the claimed single `[doc.sketch]` row): the
source also synthesizes a group for the full part path, and the depth-1
group `doc.sketch/page1` is `shown` because its parent is opened. -/
theorem C3_counterexample :
    (getFileList [exScenarioB] none).acc.length = 4
      ∧ (getOpenedFilesList (getFileList [exScenarioB] none).acc).length = 2 := by
  exact ⟨by decide, by decide⟩

/-- Claim C3, amended: for the Scenario-B input the synthesis produces four
nodes — group `doc.sketch` (depth 0, `opened = true`, `shown = true`), group
`doc.sketch/page1` (depth 1, `opened = false`, but `shown = true` since its
parent is opened), group `doc.sketch/page1/layer1` (depth 2, `opened = false`,
`shown = false`), and the layer's file row (`shown = false`) — and the
projection is the two-row sequence `[doc.sketch, doc.sketch/page1]`. -/
theorem C3_amended :
    (getFileList [exScenarioB] none).acc =
      [("doc.sketch", TFileOrSketchPartChange.fakePart
          { opened := true, shown := true, index := 0,
            type := FileType.SketchFile, id := "doc.sketch", parts := [],
            name := "doc.sketch", status := none }),
       ("doc.sketch/page1", TFileOrSketchPartChange.fakePart
          { opened := false, shown := true, index := 1,
            type := FileType.PageFile, id := "doc.sketch/page1",
            parts := ["doc.sketch"], name := "page1", status := none }),
       ("doc.sketch/page1/layer1", TFileOrSketchPartChange.fakePart
          { opened := false, shown := false, index := 2,
            type := FileType.LayerFile, id := "doc.sketch/page1/layer1",
            parts := ["doc.sketch", "page1"], name := "layer1", status := none }),
       ("layer1id", TFileOrSketchPartChange.file
          { id := "layer1id", path := "doc.sketch/pages/page1/layer1.json",
            parts := some ["doc.sketch", "page1", "layer1"],
            sketchFile := true, status := stMod, shown := false, index := 3 })]
      ∧ getOpenedFilesList (getFileList [exScenarioB] none).acc =
          [TFileOrSketchPartChange.fakePart
            { opened := true, shown := true, index := 0,
              type := FileType.SketchFile, id := "doc.sketch", parts := [],
              name := "doc.sketch", status := none },
           TFileOrSketchPartChange.fakePart
            { opened := false, shown := true, index := 1,
              type := FileType.PageFile, id := "doc.sketch/page1",
              parts := ["doc.sketch"], name := "page1", status := none }] := by
  exact ⟨by decide, by decide⟩

/-- Claim C4, counterexample: calling `onOpenChanged` with a group id that is
absent from the current table is not a silent no-op — the source reads
`files[id].fakePart` from an `undefined` lookup and throws a `TypeError`
(modelled as `none`), instead of leaving the table unchanged. -/
theorem C4_counterexample :
    onOpenChanged exFileTable [] "missing-group" true = none := by decide

/-- Claim C4, amended: `onOpenChanged` with an id that names a `FileNode`
(an entry without `fakePart: true`) leaves the table — and hence the
projection — unchanged without error; but an id absent from the table makes
the source throw a `TypeError` (`undefined.fakePart`) rather than no-op. -/
theorem C4_amended (tbl : NodeTable) (wd : List WorkingDirectoryFileChange)
    (id : String) (op : Bool) (f : WorkingDirectoryFileChange)
    (h : lookupA tbl id = some (TFileOrSketchPartChange.file f)) :
    onOpenChanged tbl wd id op = some tbl := by
  simp [onOpenChanged, h]

/-- Witness for `C4_amended`: toggling the id of a file row is a no-op. -/
theorem C4_amended_witness :
    onOpenChanged exFileTable [] "readme" true = some exFileTable :=
  C4_amended exFileTable [] "readme" true
    { id := "readme", path := "readme.md", parts := none,
      sketchFile := false, status := stMod, shown := true, index := 0 }
    (by decide)

/-- Claim C10: a change record whose `sketchFile` flag is false is processed
by the plain-file branch regardless of its `partPath`: the step inserts
exactly one file row with `shown = true` and the next display index, and
leaves the group accumulator (`fakePartsAcc`) and the parent-tracking slot
untouched — no group rows are synthesized for its part-path prefixes. -/
theorem C10_plain_file (oldList : Option NodeTable) (st : SynthSt)
    (f : WorkingDirectoryFileChange) (h : f.sketchFile = false) :
    stepFile oldList st f =
      { st with
        acc := upsertA st.acc f.id
          (TFileOrSketchPartChange.file { f with shown := true, index := st.index })
        index := st.index + 1
        rfiles := st.rfiles ++ [{ f with shown := true, index := st.index }]
        prevParts := f.parts.getD [] } := by
  cases hp : f.parts <;> simp [stepFile, plainInsert, h, hp]

/-- Witness for `C10_plain_file`: a non-sketch record carrying a nonempty
part path is still emitted as a single visible file row. -/
theorem C10_plain_file_witness :
    stepFile none initialSynthSt
        { id := "odd", path := "odd.txt", parts := some ["a", "b"],
          sketchFile := false, status := stMod } =
      { initialSynthSt with
        acc := [("odd", TFileOrSketchPartChange.file
          { id := "odd", path := "odd.txt", parts := some ["a", "b"],
            sketchFile := false, status := stMod, shown := true, index := 0 })],
        index := 1,
        rfiles := [
          { id := "odd", path := "odd.txt", parts := some ["a", "b"],
            sketchFile := false, status := stMod, shown := true, index := 0 }],
        prevParts := ["a", "b"] } := by
  have h := C10_plain_file none initialSynthSt
    { id := "odd", path := "odd.txt", parts := some ["a", "b"],
      sketchFile := false, status := stMod } (by decide)
  simpa [initialSynthSt, upsertA] using h

/-! ## Display-index bookkeeping (claim C6) -/

theorem mem_indicesOf_upsertA (t : NodeTable) (k : String)
    (v : TFileOrSketchPartChange) :
    ∀ x ∈ indicesOf (upsertA t k v), x ∈ indicesOf t ∨ x = nodeIndex v := by
  induction t with
  | nil => simp [upsertA, indicesOf]
  | cons hd tl ih =>
      obtain ⟨k', w⟩ := hd
      simp only [upsertA]
      split
      · simp only [indicesOf, List.map_cons, List.mem_cons]
        rintro x (rfl | hx)
        · exact Or.inr rfl
        · exact Or.inl (Or.inr hx)
      · simp only [indicesOf, List.map_cons, List.mem_cons]
        rintro x (rfl | hx)
        · exact Or.inl (Or.inl rfl)
        · rcases ih x hx with h | h
          · exact Or.inl (Or.inr h)
          · exact Or.inr h

theorem indicesOf_upsertA_fresh (t : NodeTable) (k : String)
    (v : TFileOrSketchPartChange) (N : Nat) (hv : nodeIndex v = N)
    (hb : ∀ x ∈ indicesOf t, x < N) (hd : (indicesOf t).Nodup) :
    (indicesOf (upsertA t k v)).Nodup
      ∧ ∀ x ∈ indicesOf (upsertA t k v), x < N + 1 := by
  induction t with
  | nil => simp [upsertA, indicesOf, hv]
  | cons hd' tl ih =>
      obtain ⟨k', w⟩ := hd'
      simp only [indicesOf, List.map_cons, List.nodup_cons, List.mem_cons] at hb hd
      simp only [upsertA]
      split
      · constructor
        · simp only [indicesOf, List.map_cons, List.nodup_cons]
          refine ⟨fun hc => ?_, hd.2⟩
          have := hb (nodeIndex v) (Or.inr hc)
          omega
        · simp only [indicesOf, List.map_cons, List.mem_cons]
          rintro x (rfl | hx)
          · omega
          · have := hb x (Or.inr hx); omega
      · have ihr := ih (fun x hx => hb x (Or.inr hx)) hd.2
        constructor
        · simp only [indicesOf, List.map_cons, List.nodup_cons]
          refine ⟨fun hc => ?_, ihr.1⟩
          rcases mem_indicesOf_upsertA tl k v _ hc with h | h
          · exact hd.1 h
          · have := hb (nodeIndex w) (Or.inl rfl)
            omega
        · simp only [indicesOf, List.map_cons, List.mem_cons]
          rintro x (rfl | hx)
          · have := hb (nodeIndex w) (Or.inl rfl); omega
          · exact ihr.2 x hx

theorem indicesOf_upsertA_same (t : NodeTable) (k : String)
    (v w : TFileOrSketchPartChange) (hl : lookupA t k = some w)
    (hi : nodeIndex v = nodeIndex w) :
    indicesOf (upsertA t k v) = indicesOf t := by
  induction t with
  | nil => simp [lookupA] at hl
  | cons hd tl ih =>
      obtain ⟨k', u⟩ := hd
      simp only [lookupA] at hl
      simp only [upsertA]
      by_cases hk : k' = k
      · rw [if_pos hk] at hl ⊢
        cases hl
        simp [indicesOf, hi]
      · rw [if_neg hk] at hl ⊢
        simp only [indicesOf, List.map_cons]
        have heq := ih hl
        simp only [indicesOf] at heq
        rw [heq]

theorem partSkip_indexInv (c : Bool) (fs : AppFileStatus) (id : String)
    (st : SynthSt) (h : indexInv st) : indexInv (partSkip c fs id st) := by
  cases c with
  | false => exact h
  | true =>
      cases hm : lookupA st.acc id with
      | none => simpa [partSkip, hm] using h
      | some w =>
          cases w with
          | file g => simpa [partSkip, hm] using h
          | fakePart p =>
              cases hs : p.status with
              | some s => simpa [partSkip, hm, hs] using h
              | none =>
                  have heq := indicesOf_upsertA_same st.acc id
                    (TFileOrSketchPartChange.fakePart { p with status := some fs })
                    (TFileOrSketchPartChange.fakePart p) hm rfl
                  simp only [partSkip, hm, hs]
                  exact ⟨by simpa [indexInv, heq] using h.1,
                    by simpa [indexInv, heq] using h.2⟩

theorem partCreate_indexInv (o : Option NodeTable) (c : Bool)
    (fs : AppFileStatus) (arr : List String) (i : Nat) (part : String)
    (st : SynthSt) (h : indexInv st) :
    indexInv (partCreate o c fs arr i part st) := by
  have hfresh := indicesOf_upsertA_fresh st.acc (partIdOf arr i part)
    (TFileOrSketchPartChange.fakePart (createdNode o c fs arr i part st))
    st.index rfl h.2 h.1
  exact ⟨hfresh.1, hfresh.2⟩

theorem partStep_indexInv (o : Option NodeTable) (c : Bool)
    (fs : AppFileStatus) (pv arr : List String) (st : SynthSt)
    (ip : Nat × String) (h : indexInv st) :
    indexInv (partStep o c fs pv arr st ip) := by
  have hreset : indexInv (if ip.1 ≤ 1 then { st with parentPartChange := none } else st) := by
    split <;> exact h
  simp only [partStep]
  split
  · exact partSkip_indexInv _ _ _ _ hreset
  · exact partCreate_indexInv _ _ _ _ _ _ _ hreset

theorem plainInsert_indexInv (st : SynthSt) (f : WorkingDirectoryFileChange)
    (h : indexInv st) : indexInv (plainInsert st f) := by
  have hfresh := indicesOf_upsertA_fresh st.acc f.id
    (TFileOrSketchPartChange.file { f with shown := true, index := st.index })
    st.index rfl h.2 h.1
  exact ⟨hfresh.1, hfresh.2⟩

theorem sketchFileInsert_indexInv (ps : List String)
    (f : WorkingDirectoryFileChange) (st1 : SynthSt) (h : indexInv st1) :
    indexInv (sketchFileInsert ps f st1) := by
  have hfresh := indicesOf_upsertA_fresh st1.acc f.id
    (TFileOrSketchPartChange.file
      { f with
        shown := ((sketchParentAfter ps st1).map TFakeSketchPartChange.opened).getD false
          || ps.length == 0
        index := st1.index })
    st1.index rfl h.2 h.1
  exact ⟨hfresh.1, hfresh.2⟩

theorem stepFile_indexInv (o : Option NodeTable) (st : SynthSt)
    (f : WorkingDirectoryFileChange) (h : indexInv st) :
    indexInv (stepFile o st f) := by
  have hmain : ∀ st' : SynthSt, indexInv st'
      → indexInv { st' with prevParts := f.parts.getD [] } :=
    fun st' h' => h'
  simp only [stepFile]
  apply hmain
  cases f.parts with
  | none => exact plainInsert_indexInv st f h
  | some ps =>
      by_cases hsk : f.sketchFile
      · simp only [hsk, ite_true, if_true]
        split
        · exact plainInsert_indexInv st f h
        · exact sketchFileInsert_indexInv ps f _
            (foldl_preserve
              (fun a b ha => partStep_indexInv o _ f.status st.prevParts ps a b ha)
              ps.enum st h)
      · simp only [hsk]
        exact plainInsert_indexInv st f h

/-! ## Expand-state lookup rule (claim C5) -/

theorem accOpenedInv_upsert_file (o : Option NodeTable) (t : NodeTable)
    (k : String) (f : WorkingDirectoryFileChange) (h : accOpenedInv o t) :
    accOpenedInv o (upsertA t k (TFileOrSketchPartChange.file f)) := by
  intro id g hg
  rw [lookupA_upsertA] at hg
  by_cases hk : k = id
  · rw [if_pos hk] at hg; simp at hg
  · rw [if_neg hk] at hg; exact h id g hg

theorem accOpenedInv_upsert_fake (o : Option NodeTable) (t : NodeTable)
    (k : String) (n : TFakeSketchPartChange) (h : accOpenedInv o t)
    (hn : openedRule o k n) :
    accOpenedInv o (upsertA t k (TFileOrSketchPartChange.fakePart n)) := by
  intro id g hg
  rw [lookupA_upsertA] at hg
  by_cases hk : k = id
  · rw [if_pos hk] at hg
    injection hg with h1
    injection h1 with h2
    subst h2
    exact hk ▸ hn
  · rw [if_neg hk] at hg; exact h id g hg

theorem take_beq_nil (arr : List String) (i : Nat) (h : i < arr.length) :
    ((List.take i arr == ([] : List String)) : Bool) = (i == 0) := by
  rcases Nat.eq_zero_or_pos i with h0 | h0
  · subst h0; simp
  · have harr : List.take i arr ≠ [] := by
      intro hc
      rcases List.take_eq_nil_iff.mp hc with h' | h'
      · omega
      · subst h'; simp at h
    have h1 : (List.take i arr == ([] : List String)) = false := by
      simpa using harr
    have h2 : (i == 0) = false := by
      simpa using Nat.pos_iff_ne_zero.mp h0
    rw [h1, h2]

theorem partSkip_accOpenedInv (o : Option NodeTable) (c : Bool)
    (fs : AppFileStatus) (id : String) (st : SynthSt)
    (h : accOpenedInv o st.acc) : accOpenedInv o (partSkip c fs id st).acc := by
  cases c with
  | false => exact h
  | true =>
      cases hm : lookupA st.acc id with
      | none => simpa [partSkip, hm] using h
      | some w =>
          cases w with
          | file g => simpa [partSkip, hm] using h
          | fakePart p =>
              cases hs : p.status with
              | some s => simpa [partSkip, hm, hs] using h
              | none =>
                  simp only [partSkip, hm, hs]
                  refine accOpenedInv_upsert_fake o st.acc id _ h ?_
                  have hp := h id p hm
                  simpa [openedRule] using hp

theorem createdNode_openedRule (o : Option NodeTable) (c : Bool)
    (fs : AppFileStatus) (arr : List String) (i : Nat) (part : String)
    (st : SynthSt) (hlt : i < arr.length) :
    openedRule o (partIdOf arr i part) (createdNode o c fs arr i part st) := by
  simp only [openedRule, createdNode, createdOpened]
  cases hm : o.bind (fun t => lookupA t (partIdOf arr i part)) with
  | none => simpa using (take_beq_nil arr i hlt).symm
  | some w =>
      cases w with
      | file g => simpa [hm] using (take_beq_nil arr i hlt).symm
      | fakePart p => simp [hm]

theorem partStep_accOpenedInv (o : Option NodeTable) (c : Bool)
    (fs : AppFileStatus) (pv arr : List String) (st : SynthSt)
    (ip : Nat × String) (hlt : ip.1 < arr.length)
    (h : accOpenedInv o st.acc) :
    accOpenedInv o (partStep o c fs pv arr st ip).acc := by
  have hreset : accOpenedInv o
      (if ip.1 ≤ 1 then { st with parentPartChange := none } else st).acc := by
    split <;> exact h
  simp only [partStep]
  split
  · exact partSkip_accOpenedInv o c fs _ _ hreset
  · exact accOpenedInv_upsert_fake o _ _ _ hreset
      (createdNode_openedRule o c fs arr ip.1 ip.2 _ hlt)

theorem stepFile_accOpenedInv (o : Option NodeTable) (st : SynthSt)
    (f : WorkingDirectoryFileChange) (h : accOpenedInv o st.acc) :
    accOpenedInv o (stepFile o st f).acc := by
  have hmain : ∀ st' : SynthSt, accOpenedInv o st'.acc
      → accOpenedInv o ({ st' with prevParts := f.parts.getD [] }).acc :=
    fun st' h' => h'
  simp only [stepFile]
  apply hmain
  cases f.parts with
  | none => exact accOpenedInv_upsert_file o st.acc f.id _ h
  | some ps =>
      cases hsk : f.sketchFile with
      | false =>
          simp only [hsk, Bool.false_eq_true, if_false, ite_false]
          exact accOpenedInv_upsert_file o st.acc f.id _ h
      | true =>
          simp only [hsk, if_true, ite_true]
          split
          · exact accOpenedInv_upsert_file o st.acc f.id _ h
          · refine accOpenedInv_upsert_file o _ f.id _ ?_
            refine foldl_preserve_mem (fun ip => ip.1 < ps.length) ps.enum
              (fun ip hip => ?_)
              (fun a ip hq ha => partStep_accOpenedInv o _ f.status st.prevParts ps a ip hq ha)
              st h
            have := List.mem_enum_iff_getElem?.mp hip
            exact (List.getElem?_eq_some.mp this).1

theorem getFileList_openedRule (files : List WorkingDirectoryFileChange)
    (oldList : Option NodeTable) (id : String) (g : TFakeSketchPartChange)
    (h : lookupA (getFileList files oldList).acc id
      = some (TFileOrSketchPartChange.fakePart g)) :
    openedRule oldList id g := by
  refine foldl_preserve
    (fun a b ha => stepFile_accOpenedInv oldList a b ha) files initialSynthSt
    ?_ id g h
  intro id' g' hg'
  simp [initialSynthSt, lookupA] at hg'

/-- Claim C5: every group row stored by a synthesis pass takes its `opened`
flag from the group row with the same id in the previous table when that
table holds one there, and otherwise defaults to open exactly for depth-0
groups (prefix position `i == 0`, equivalently an empty `parts` prefix) and
closed for every deeper group. -/
theorem C5_expand_state (files : List WorkingDirectoryFileChange)
    (oldList : Option NodeTable) (id : String) (g : TFakeSketchPartChange)
    (h : lookupA (getFileList files oldList).acc id
      = some (TFileOrSketchPartChange.fakePart g)) :
    openedRule oldList id g :=
  getFileList_openedRule files oldList id g h

/-- Witness for `C5_expand_state`: the group `a/b`, expanded in the previous
table `exOldDeepOpen`, is still expanded after re-synthesis, while the
freshly seen depth-0 group `a` defaults to open. -/
theorem C5_expand_state_witness :
    openedRule (some exOldDeepOpen) "a/b"
      { opened := true, shown := true, index := 1, type := FileType.PageFile,
        id := "a/b", parts := ["a"], name := "b", status := none } :=
  C5_expand_state [exFileABC] (some exOldDeepOpen) "a/b"
    { opened := true, shown := true, index := 1, type := FileType.PageFile,
      id := "a/b", parts := ["a"], name := "b", status := none }
    (by decide)

/-! ## Visibility of group rows (claim C1) -/

theorem append_slash_ne_empty (a b : String) : a ++ "/" ++ b ≠ "" := by
  intro hc
  have hlen := congrArg String.length hc
  rw [String.length_append, String.length_append] at hlen
  have h1 : ("/" : String).length = 1 := rfl
  have h2 : ("" : String).length = 0 := rfl
  rw [h1, h2] at hlen
  omega

theorem partIdOf_ne_empty (arr : List String) (i : Nat) (part : String)
    (hp : part ≠ "") : partIdOf arr i part ≠ "" := by
  simp only [partIdOf]
  split
  · exact append_slash_ne_empty _ _
  · exact hp

theorem createdPP_root (arr : List String) (st : SynthSt)
    (hppc : st.parentPartChange = none)
    (hfp : lookupA st.fakePartsAcc "" = none) : createdPP arr 0 st = none := by
  simp [createdPP, hppc, joinSlash, hfp]

theorem createdNode_shown_of_opened (o : Option NodeTable) (c : Bool)
    (fs : AppFileStatus) (arr : List String) (i : Nat) (part : String)
    (st : SynthSt) (ho : (createdNode o c fs arr i part st).opened = true) :
    (createdNode o c fs arr i part st).shown = true := by
  simp only [createdNode] at ho ⊢
  simp [ho]

theorem createdNode_shown_of_root (o : Option NodeTable) (c : Bool)
    (fs : AppFileStatus) (arr : List String) (i : Nat) (part : String)
    (st : SynthSt) (hpp : createdPP arr i st = none) :
    (createdNode o c fs arr i part st).shown = true := by
  simp [createdNode, hpp]

theorem partSkip_shownInv (c : Bool) (fs : AppFileStatus) (id : String)
    (st : SynthSt) (h : shownInv st) : shownInv (partSkip c fs id st) := by
  cases c with
  | false => exact h
  | true =>
      cases hm : lookupA st.acc id with
      | none => simpa [partSkip, hm] using h
      | some w =>
          cases w with
          | file g => simpa [partSkip, hm] using h
          | fakePart p =>
              cases hs : p.status with
              | some s => simpa [partSkip, hm, hs] using h
              | none =>
                  have hgoal : partSkip true fs id st
                      = { st with acc := upsertA st.acc id (TFileOrSketchPartChange.fakePart { p with status := some fs }) } := by
                    simp [partSkip, hm, hs]
                  rw [hgoal]
                  refine ⟨?_, h.2⟩
                  intro id' g hg
                  replace hg : lookupA (upsertA st.acc id
                      (TFileOrSketchPartChange.fakePart { p with status := some fs })) id'
                      = some (TFileOrSketchPartChange.fakePart g) := hg
                  rw [lookupA_upsertA] at hg
                  by_cases hk : id = id'
                  · rw [if_pos hk] at hg
                    injection hg with h1
                    injection h1 with h2
                    subst h2
                    simpa using h.1 id p hm
                  · rw [if_neg hk] at hg
                    exact h.1 id' g hg

theorem partCreate_shownInv (o : Option NodeTable) (c : Bool)
    (fs : AppFileStatus) (arr : List String) (i : Nat) (part : String)
    (st : SynthSt) (hlt : i < arr.length) (hpart : part ≠ "")
    (hppc : i = 0 → st.parentPartChange = none) (h : shownInv st) :
    shownInv (partCreate o c fs arr i part st) := by
  constructor
  · intro id' g hg
    have hg' : lookupA (upsertA st.acc (partIdOf arr i part)
        (TFileOrSketchPartChange.fakePart (createdNode o c fs arr i part st))) id'
        = some (TFileOrSketchPartChange.fakePart g) := hg
    rw [lookupA_upsertA] at hg'
    by_cases hk : partIdOf arr i part = id'
    · rw [if_pos hk] at hg'
      injection hg' with h1
      injection h1 with h2
      subst h2
      constructor
      · exact createdNode_shown_of_opened o c fs arr i part st
      · intro hparts
        have hi0 : i = 0 := by
          have := hparts
          simp only [createdNode] at this
          rcases List.take_eq_nil_iff.mp this with h' | h'
          · exact h'
          · subst h'; simp at hlt
        subst hi0
        exact createdNode_shown_of_root o c fs arr 0 part st
          (createdPP_root arr st (hppc rfl) h.2)
    · rw [if_neg hk] at hg'
      exact h.1 id' g hg'
  · show lookupA (upsertA st.fakePartsAcc (partIdOf arr i part)
      (createdNode o c fs arr i part st)) "" = none
    rw [lookupA_upsertA, if_neg (partIdOf_ne_empty arr i part hpart)]
    exact h.2

theorem partStep_shownInv (o : Option NodeTable) (c : Bool)
    (fs : AppFileStatus) (pv arr : List String) (st : SynthSt)
    (ip : Nat × String) (hlt : ip.1 < arr.length) (hpart : ip.2 ≠ "")
    (h : shownInv st) : shownInv (partStep o c fs pv arr st ip) := by
  have hreset : shownInv (if ip.1 ≤ 1 then { st with parentPartChange := none } else st) := by
    split <;> exact h
  simp only [partStep]
  split
  · exact partSkip_shownInv c fs _ _ hreset
  · refine partCreate_shownInv o c fs arr ip.1 ip.2 _ hlt hpart ?_ hreset
    intro h0
    rw [h0]
    simp

theorem shownInv_upsert_file (st : SynthSt) (k : String)
    (f : WorkingDirectoryFileChange) (fp : FakeTable)
    (ppc : Option TFakeSketchPartChange) (idx : Nat)
    (rf : List WorkingDirectoryFileChange) (pp2 : List String)
    (h1 : ∀ id g, lookupA st.acc id = some (TFileOrSketchPartChange.fakePart g) →
      (g.opened = true → g.shown = true) ∧ (g.parts = [] → g.shown = true))
    (h2 : lookupA fp "" = none) :
    shownInv
      { acc := upsertA st.acc k (TFileOrSketchPartChange.file f),
        fakePartsAcc := fp, parentPartChange := ppc, index := idx,
        rfiles := rf, prevParts := pp2 } := by
  refine ⟨?_, h2⟩
  intro id g hg
  simp only at hg
  rw [lookupA_upsertA] at hg
  by_cases hk : k = id
  · rw [if_pos hk] at hg; simp at hg
  · rw [if_neg hk] at hg; exact h1 id g hg

theorem stepFile_shownInv (o : Option NodeTable) (st : SynthSt)
    (f : WorkingDirectoryFileChange) (hne : ∀ p ∈ f.parts.getD [], p ≠ "")
    (h : shownInv st) : shownInv (stepFile o st f) := by
  have hmain : ∀ st' : SynthSt, shownInv st'
      → shownInv { st' with prevParts := f.parts.getD [] } :=
    fun st' h' => h'
  simp only [stepFile]
  apply hmain
  cases hp : f.parts with
  | none => exact shownInv_upsert_file st f.id _ _ _ _ _ _ h.1 h.2
  | some ps =>
      rw [hp] at hne
      cases hsk : f.sketchFile with
      | false =>
          simp only [hsk, Bool.false_eq_true, if_false, ite_false]
          exact shownInv_upsert_file st f.id _ _ _ _ _ _ h.1 h.2
      | true =>
          simp only [hsk, if_true, ite_true]
          split
          · exact shownInv_upsert_file st f.id _ _ _ _ _ _ h.1 h.2
          · have hfold : shownInv (ps.enum.foldl
                (partStep o (f.status.kind == AppFileStatusKind.Conflicted) f.status st.prevParts ps) st) := by
              refine foldl_preserve_mem
                (fun ip => ip.1 < ps.length ∧ ip.2 ≠ "") ps.enum
                (fun ip hip => ?_)
                (fun a ip hq ha =>
                  partStep_shownInv o _ f.status st.prevParts ps a ip hq.1 hq.2 ha)
                st h
              have hm := List.mem_enum_iff_getElem?.mp hip
              obtain ⟨hlt, hget⟩ := List.getElem?_eq_some.mp hm
              refine ⟨hlt, ?_⟩
              have : ip.2 ∈ ps := hget ▸ List.getElem_mem hlt
              exact hne ip.2 this
            exact shownInv_upsert_file _ f.id _ _ _ _ _ _ hfold.1 hfold.2

/-- Claim C1, counterexample: with a previous table in which the depth-0
group `a` is collapsed and the depth-1 group `a/b` is expanded,
re-synthesizing `[exFileAB]` keeps `a/b` expanded and therefore `shown`,
while its immediate parent `a` is collapsed — a node is visible although its
immediate parent group is collapsed, so the claimed equivalence fails. -/
theorem C1_counterexample :
    lookupA (getFileList [exFileAB] (some exOldClosedParent)).acc "a/b"
        = some (TFileOrSketchPartChange.fakePart
          { opened := true, shown := true, index := 1, type := FileType.PageFile,
            id := "a/b", parts := ["a"], name := "b", status := none })
      ∧ lookupA (getFileList [exFileAB] (some exOldClosedParent)).acc "a"
        = some (TFileOrSketchPartChange.fakePart
          { opened := false, shown := true, index := 0, type := FileType.SketchFile,
            id := "a", parts := [], name := "a", status := none }) := by
  exact ⟨by decide, by decide⟩

/-- Claim C1, amended: the source computes a group row's `shown` flag as
`opened || !parentPartChange || parentPartChange.opened`, not as the claimed
"parent expanded and visible" conjunction.  What does hold for every table
produced by one synthesis pass (over changes whose part segments are
nonempty) is: every group row with `opened = true` is `shown`, and every
depth-0 group row (empty `parts` prefix) is `shown`.  The converse fails: a
node can be `shown` while its immediate parent group is collapsed, as the
counterexample shows. -/
theorem C1_amended (files : List WorkingDirectoryFileChange)
    (oldList : Option NodeTable) (hne : allPartsNonempty files) (id : String)
    (g : TFakeSketchPartChange)
    (h : lookupA (getFileList files oldList).acc id
      = some (TFileOrSketchPartChange.fakePart g)) :
    (g.opened = true → g.shown = true) ∧ (g.parts = [] → g.shown = true) := by
  have hinv : shownInv (getFileList files oldList) := by
    refine foldl_preserve_mem
      (fun f => ∀ p ∈ f.parts.getD [], p ≠ "") files hne
      (fun a f hq ha => stepFile_shownInv oldList a f hq ha)
      initialSynthSt ⟨?_, by simp [initialSynthSt, lookupA]⟩
    intro id' g' hg'
    simp [initialSynthSt, lookupA] at hg'
  exact hinv.1 id g h

/-- Witness for `C1_amended`: the freshly synthesized depth-0 group `a` of
`[exFileAB]` is opened, hence shown. -/
theorem C1_amended_witness :
    ({ opened := true, shown := true, index := 0, type := FileType.SketchFile,
       id := "a", parts := [], name := "a",
       status := none } : TFakeSketchPartChange).shown = true :=
  (C1_amended [exFileAB] none (by decide) "a"
    { opened := true, shown := true, index := 0, type := FileType.SketchFile,
      id := "a", parts := [], name := "a", status := none }
    (by decide)).1 rfl

/-- Claim C6, counterexample: for the three-change input
`[exGapS1, exGapP2, exGapS3]` the group `a` is synthesized twice (the third
change no longer shares a segment with its immediate predecessor), so its
first display index is abandoned: the table has 4 nodes but its index set is
`{1, 2, 3, 4}` — index 0 is missing, so the indices are not
`{0, 1, …, n−1}`. -/
theorem C6_counterexample :
    (getFileList [exGapS1, exGapP2, exGapS3] none).acc.length = 4
      ∧ indicesOf (getFileList [exGapS1, exGapP2, exGapS3] none).acc = [3, 1, 2, 4]
      ∧ 0 ∉ indicesOf (getFileList [exGapS1, exGapP2, exGapS3] none).acc := by
  exact ⟨by decide, by decide, by decide⟩

/-- Claim C6, amended: over all nodes stored in the table produced by one
synthesis pass — visible or not — the display indices are pairwise distinct
and all lie strictly below the final value of the running index counter; but
the set can have gaps (it equals `{0, …, n−1}` only when no table key is
written twice), as the counterexample shows. -/
theorem C6_amended (files : List WorkingDirectoryFileChange)
    (oldList : Option NodeTable) :
    (indicesOf (getFileList files oldList).acc).Nodup
      ∧ ∀ x ∈ indicesOf (getFileList files oldList).acc,
          x < (getFileList files oldList).index := by
  have h : indexInv (getFileList files oldList) :=
    foldl_preserve (fun a b ha => stepFile_indexInv oldList a b ha) files
      initialSynthSt ⟨by simp [initialSynthSt, indicesOf], by simp [initialSynthSt, indicesOf]⟩
  exact h

/-! ## Monotonicity of one synthesis pass in the previous table's `opened`
flags (towards claim C8) -/

theorem foldl_rel {α β : Type} {R : α → α → Prop} {f g : α → β → α}
    (h : ∀ a b x, R a b → R (f a x) (g b x)) :
    ∀ (l : List β) (a b : α), R a b → R (l.foldl f a) (l.foldl g b) := by
  intro l
  induction l with
  | nil => exact fun a b hab => hab
  | cons x xs ih => exact fun a b hab => ih (f a x) (g b x) (h a b x hab)

theorem bLE_refl (a : Bool) : bLE a a := fun h => h

theorem bLE_or (a1 a2 b1 b2 c1 c2 : Bool) (ha : bLE a1 a2) (hb : bLE b1 b2)
    (hc : bLE c1 c2) : bLE (a1 || b1 || c1) (a2 || b2 || c2) := by
  intro h
  simp only [Bool.or_eq_true] at h ⊢
  rcases h with (h | h) | h
  · exact Or.inl (Or.inl (ha h))
  · exact Or.inl (Or.inr (hb h))
  · exact Or.inr (hc h)

theorem fileLE_refl (f : WorkingDirectoryFileChange) : fileLE f f :=
  ⟨bLE_refl _, rfl⟩

theorem fakeLE_id (p1 p2 : TFakeSketchPartChange) (h : fakeLE p1 p2) :
    p1.id = p2.id := by
  have := congrArg TFakeSketchPartChange.id h.2.2
  simpa using this

theorem fakeLE_parts (p1 p2 : TFakeSketchPartChange) (h : fakeLE p1 p2) :
    p1.parts = p2.parts := by
  have := congrArg TFakeSketchPartChange.parts h.2.2
  simpa using this

theorem fakeLE_status (p1 p2 : TFakeSketchPartChange) (h : fakeLE p1 p2) :
    p1.status = p2.status := by
  have := congrArg TFakeSketchPartChange.status h.2.2
  simpa using this

theorem fakeLE_index (p1 p2 : TFakeSketchPartChange) (h : fakeLE p1 p2) :
    p1.index = p2.index := by
  have := congrArg TFakeSketchPartChange.index h.2.2
  simpa using this

theorem optLE_isNone {α : Type} (r : α → α → Prop) (x y : Option α)
    (h : optLE r x y) : x.isNone = y.isNone := by
  cases x <;> cases y <;> simp_all [optLE]

theorem optLE_map_id (x y : Option TFakeSketchPartChange)
    (h : optLE fakeLE x y) :
    x.map TFakeSketchPartChange.id = y.map TFakeSketchPartChange.id := by
  cases x <;> cases y <;> simp_all [optLE]
  exact fakeLE_id _ _ h

theorem optLE_opened_getD (x y : Option TFakeSketchPartChange)
    (h : optLE fakeLE x y) :
    bLE ((x.map TFakeSketchPartChange.opened).getD false)
      ((y.map TFakeSketchPartChange.opened).getD false) := by
  cases x with
  | none =>
      cases y with
      | none => exact fun hx => hx
      | some b => exact absurd h (by simp [optLE])
  | some a =>
      cases y with
      | none => exact absurd h (by simp [optLE])
      | some b => exact h.1

theorem lookupA_tableLE (t1 t2 : NodeTable) (h : tableLE t1 t2) (id : String) :
    optLE nodeLE (lookupA t1 id) (lookupA t2 id) := by
  induction h with
  | nil => exact trivial
  | cons hab hrest ih =>
      rename_i a b l1 l2
      obtain ⟨hk, hv⟩ := hab
      obtain ⟨k1, v1⟩ := a
      obtain ⟨k2, v2⟩ := b
      simp only at hk hv
      subst hk
      simp only [lookupA]
      by_cases hid : k1 = id
      · rw [if_pos hid, if_pos hid]; exact hv
      · rw [if_neg hid, if_neg hid]; exact ih

theorem lookupA_fakeTableLE (t1 t2 : FakeTable) (h : fakeTableLE t1 t2)
    (id : String) : optLE fakeLE (lookupA t1 id) (lookupA t2 id) := by
  induction h with
  | nil => exact trivial
  | cons hab hrest ih =>
      rename_i a b l1 l2
      obtain ⟨hk, hv⟩ := hab
      obtain ⟨k1, v1⟩ := a
      obtain ⟨k2, v2⟩ := b
      simp only at hk hv
      subst hk
      simp only [lookupA]
      by_cases hid : k1 = id
      · rw [if_pos hid, if_pos hid]; exact hv
      · rw [if_neg hid, if_neg hid]; exact ih

theorem upsertA_tableLE (t1 t2 : NodeTable) (h : tableLE t1 t2) (k : String)
    (v1 v2 : TFileOrSketchPartChange) (hv : nodeLE v1 v2) :
    tableLE (upsertA t1 k v1) (upsertA t2 k v2) := by
  induction h with
  | nil => exact List.Forall₂.cons ⟨rfl, hv⟩ List.Forall₂.nil
  | cons hab hrest ih =>
      rename_i a b l1 l2
      obtain ⟨hk, hval⟩ := hab
      obtain ⟨k1, w1⟩ := a
      obtain ⟨k2, w2⟩ := b
      simp only at hk hval
      subst hk
      simp only [upsertA]
      by_cases hkk : k1 = k
      · rw [if_pos hkk, if_pos hkk]
        exact List.Forall₂.cons ⟨rfl, hv⟩ hrest
      · rw [if_neg hkk, if_neg hkk]
        exact List.Forall₂.cons ⟨rfl, hval⟩ ih

theorem upsertA_fakeTableLE (t1 t2 : FakeTable) (h : fakeTableLE t1 t2)
    (k : String) (v1 v2 : TFakeSketchPartChange) (hv : fakeLE v1 v2) :
    fakeTableLE (upsertA t1 k v1) (upsertA t2 k v2) := by
  induction h with
  | nil => exact List.Forall₂.cons ⟨rfl, hv⟩ List.Forall₂.nil
  | cons hab hrest ih =>
      rename_i a b l1 l2
      obtain ⟨hk, hval⟩ := hab
      obtain ⟨k1, w1⟩ := a
      obtain ⟨k2, w2⟩ := b
      simp only at hk hval
      subst hk
      simp only [upsertA]
      by_cases hkk : k1 = k
      · rw [if_pos hkk, if_pos hkk]
        exact List.Forall₂.cons ⟨rfl, hv⟩ hrest
      · rw [if_neg hkk, if_neg hkk]
        exact List.Forall₂.cons ⟨rfl, hval⟩ ih

theorem createdOpened_eq (o : Option NodeTable) (id : String) (i : Nat) :
    createdOpened o id i = (lookupOpenedO o id).getD (i == 0) := by
  simp only [createdOpened, lookupOpenedO]
  cases hm : o.bind (fun t => lookupA t id) with
  | none => rfl
  | some w => cases w <;> rfl

theorem createdOpened_le (o1 o2 : Option NodeTable) (h : oldLE o1 o2)
    (id : String) (i : Nat) :
    bLE (createdOpened o1 id i) (createdOpened o2 id i) := by
  rw [createdOpened_eq, createdOpened_eq]
  have hrel := h id
  cases h1 : lookupOpenedO o1 id with
  | none =>
      cases h2 : lookupOpenedO o2 id with
      | none => exact fun hx => hx
      | some b => rw [h1, h2] at hrel; exact absurd hrel (by simp [optLE])
  | some a =>
      cases h2 : lookupOpenedO o2 id with
      | none => rw [h1, h2] at hrel; exact absurd hrel (by simp [optLE])
      | some b => rw [h1, h2] at hrel; exact hrel

theorem createdPP_le (arr : List String) (i : Nat) (st1 st2 : SynthSt)
    (hfp : fakeTableLE st1.fakePartsAcc st2.fakePartsAcc)
    (hpp : optLE fakeLE st1.parentPartChange st2.parentPartChange) :
    optLE fakeLE (createdPP arr i st1) (createdPP arr i st2) := by
  simp only [createdPP]
  rw [optLE_isNone _ _ _ hpp, optLE_map_id _ _ hpp]
  split
  · exact lookupA_fakeTableLE _ _ hfp _
  · exact hpp

theorem createdNode_le (o1 o2 : Option NodeTable) (c : Bool)
    (fs : AppFileStatus) (arr : List String) (i : Nat) (part : String)
    (st1 st2 : SynthSt) (h : oldLE o1 o2)
    (hfp : fakeTableLE st1.fakePartsAcc st2.fakePartsAcc)
    (hpp : optLE fakeLE st1.parentPartChange st2.parentPartChange)
    (hidx : st1.index = st2.index) :
    fakeLE (createdNode o1 c fs arr i part st1)
      (createdNode o2 c fs arr i part st2) := by
  have hppc := createdPP_le arr i st1 st2 hfp hpp
  refine ⟨?_, ?_, ?_⟩
  · exact createdOpened_le o1 o2 h _ i
  · simp only [createdNode]
    refine bLE_or _ _ _ _ _ _ (createdOpened_le o1 o2 h _ i) ?_
      (optLE_opened_getD _ _ hppc)
    rw [optLE_isNone _ _ _ hppc]
    exact bLE_refl _
  · simp only [createdNode]
    rw [hidx]

theorem partSkip_le (c : Bool) (fs : AppFileStatus) (id : String)
    (st1 st2 : SynthSt) (h : stLE st1 st2) :
    stLE (partSkip c fs id st1) (partSkip c fs id st2) := by
  obtain ⟨hacc, hfp, hpp, hidx, hrf, hprev⟩ := h
  cases c with
  | false => exact ⟨hacc, hfp, hpp, hidx, hrf, hprev⟩
  | true =>
      have hl := lookupA_tableLE _ _ hacc id
      cases hm1 : lookupA st1.acc id with
      | none =>
          cases hm2 : lookupA st2.acc id with
          | none => simpa [partSkip, hm1, hm2] using ⟨hacc, hfp, hpp, hidx, hrf, hprev⟩
          | some w2 => rw [hm1, hm2] at hl; exact absurd hl (by simp [optLE])
      | some w1 =>
          cases hm2 : lookupA st2.acc id with
          | none => rw [hm1, hm2] at hl; exact absurd hl (by simp [optLE])
          | some w2 =>
              rw [hm1, hm2] at hl
              cases w1 with
              | file f1 =>
                  cases w2 with
                  | file f2 =>
                      simpa [partSkip, hm1, hm2] using ⟨hacc, hfp, hpp, hidx, hrf, hprev⟩
                  | fakePart p2 => exact absurd hl (by simp [optLE, nodeLE])
              | fakePart p1 =>
                  cases w2 with
                  | file f2 => exact absurd hl (by simp [optLE, nodeLE])
                  | fakePart p2 =>
                      have hst := fakeLE_status p1 p2 hl
                      cases hs1 : p1.status with
                      | some s =>
                          simp only [partSkip, hm1, hm2, hs1, ← hst]
                          exact ⟨hacc, hfp, hpp, hidx, hrf, hprev⟩
                      | none =>
                          simp only [partSkip, hm1, hm2, hs1, ← hst]
                          refine ⟨?_, hfp, hpp, hidx, hrf, hprev⟩
                          refine upsertA_tableLE _ _ hacc id _ _ ?_
                          exact ⟨hl.1, hl.2.1, by
                            have := hl.2.2
                            simp only [TFakeSketchPartChange.mk.injEq] at this ⊢
                            simp_all⟩

theorem partCreate_le (o1 o2 : Option NodeTable) (c : Bool)
    (fs : AppFileStatus) (arr : List String) (i : Nat) (part : String)
    (st1 st2 : SynthSt) (ho : oldLE o1 o2) (h : stLE st1 st2) :
    stLE (partCreate o1 c fs arr i part st1) (partCreate o2 c fs arr i part st2) := by
  obtain ⟨hacc, hfp, hpp, hidx, hrf, hprev⟩ := h
  have hnode := createdNode_le o1 o2 c fs arr i part st1 st2 ho hfp hpp hidx
  exact ⟨upsertA_tableLE _ _ hacc _ _ _ hnode,
    upsertA_fakeTableLE _ _ hfp _ _ _ hnode, hnode, by simp [partCreate, hidx],
    hrf, hprev⟩

theorem partStep_le (o1 o2 : Option NodeTable) (c : Bool)
    (fs : AppFileStatus) (pv arr : List String) (st1 st2 : SynthSt)
    (ip : Nat × String) (ho : oldLE o1 o2) (h : stLE st1 st2) :
    stLE (partStep o1 c fs pv arr st1 ip) (partStep o2 c fs pv arr st2 ip) := by
  have hreset : stLE (if ip.1 ≤ 1 then { st1 with parentPartChange := none } else st1)
      (if ip.1 ≤ 1 then { st2 with parentPartChange := none } else st2) := by
    obtain ⟨hacc, hfp, hpp, hidx, hrf, hprev⟩ := h
    split
    · exact ⟨hacc, hfp, trivial, hidx, hrf, hprev⟩
    · exact ⟨hacc, hfp, hpp, hidx, hrf, hprev⟩
  simp only [partStep]
  split
  · exact partSkip_le c fs _ _ _ hreset
  · exact partCreate_le o1 o2 c fs arr ip.1 ip.2 _ _ ho hreset

theorem plainInsert_le (st1 st2 : SynthSt) (f : WorkingDirectoryFileChange)
    (h : stLE st1 st2) : stLE (plainInsert st1 f) (plainInsert st2 f) := by
  obtain ⟨hacc, hfp, hpp, hidx, hrf, hprev⟩ := h
  simp only [plainInsert]
  rw [hidx]
  refine ⟨?_, hfp, hpp, rfl, ?_, hprev⟩
  · exact upsertA_tableLE _ _ hacc _ _ _ (fileLE_refl _)
  · exact List.rel_append hrf (List.Forall₂.cons (fileLE_refl _) List.Forall₂.nil)

theorem sketchParentAfter_le (ps : List String) (st1 st2 : SynthSt)
    (hfp : fakeTableLE st1.fakePartsAcc st2.fakePartsAcc)
    (hpp : optLE fakeLE st1.parentPartChange st2.parentPartChange) :
    optLE fakeLE (sketchParentAfter ps st1) (sketchParentAfter ps st2) := by
  simp only [sketchParentAfter]
  rw [optLE_isNone _ _ _ hpp, optLE_map_id _ _ hpp]
  split
  · exact lookupA_fakeTableLE _ _ hfp _
  · split
    · exact trivial
    · exact hpp

theorem sketchFileInsert_le (ps : List String) (f : WorkingDirectoryFileChange)
    (st1 st2 : SynthSt) (h : stLE st1 st2) :
    stLE (sketchFileInsert ps f st1) (sketchFileInsert ps f st2) := by
  obtain ⟨hacc, hfp, hpp, hidx, hrf, hprev⟩ := h
  have hppc := sketchParentAfter_le ps st1 st2 hfp hpp
  have hshown : bLE (((sketchParentAfter ps st1).map TFakeSketchPartChange.opened).getD false || ps.length == 0)
      (((sketchParentAfter ps st2).map TFakeSketchPartChange.opened).getD false || ps.length == 0) := by
    intro hx
    simp only [Bool.or_eq_true] at hx ⊢
    rcases hx with hx | hx
    · exact Or.inl (optLE_opened_getD _ _ hppc hx)
    · exact Or.inr hx
  have hfile : fileLE { f with shown := ((sketchParentAfter ps st1).map TFakeSketchPartChange.opened).getD false || ps.length == 0, index := st1.index }
      { f with shown := ((sketchParentAfter ps st2).map TFakeSketchPartChange.opened).getD false || ps.length == 0, index := st2.index } :=
    ⟨hshown, by simp [hidx]⟩
  refine ⟨?_, hfp, hppc, by simp [sketchFileInsert, hidx], ?_, hprev⟩
  · exact upsertA_tableLE _ _ hacc _ _ _ hfile
  · exact List.rel_append hrf (List.Forall₂.cons hfile List.Forall₂.nil)

theorem stepFile_le (o1 o2 : Option NodeTable) (st1 st2 : SynthSt)
    (f : WorkingDirectoryFileChange) (ho : oldLE o1 o2) (h : stLE st1 st2) :
    stLE (stepFile o1 st1 f) (stepFile o2 st2 f) := by
  have hmain : ∀ a b : SynthSt, stLE a b
      → stLE { a with prevParts := f.parts.getD [] }
          { b with prevParts := f.parts.getD [] } := by
    rintro a b ⟨hacc, hfp, hpp, hidx, hrf, _⟩
    exact ⟨hacc, hfp, hpp, hidx, hrf, rfl⟩
  simp only [stepFile]
  apply hmain
  cases f.parts with
  | none => exact plainInsert_le st1 st2 f h
  | some ps =>
      cases hsk : f.sketchFile with
      | false =>
          simp only [hsk, Bool.false_eq_true, if_false, ite_false]
          exact plainInsert_le st1 st2 f h
      | true =>
          simp only [hsk, if_true, ite_true]
          split
          · exact plainInsert_le st1 st2 f h
          · have hprev : st1.prevParts = st2.prevParts := h.2.2.2.2.2
            rw [hprev]
            refine sketchFileInsert_le ps f _ _ ?_
            exact foldl_rel
              (fun a b x hab =>
                partStep_le o1 o2 _ f.status st2.prevParts ps a b x ho hab)
              ps.enum st1 st2 h

theorem getFileList_le (files : List WorkingDirectoryFileChange)
    (o1 o2 : Option NodeTable) (ho : oldLE o1 o2) :
    stLE (getFileList files o1) (getFileList files o2) := by
  refine foldl_rel (fun a b x hab => stepFile_le o1 o2 a b x ho hab)
    files initialSynthSt initialSynthSt ?_
  exact ⟨List.Forall₂.nil, List.Forall₂.nil, trivial, rfl, List.Forall₂.nil, rfl⟩

theorem insertByIndex_length (n : TFileOrSketchPartChange)
    (l : List TFileOrSketchPartChange) :
    (insertByIndex n l).length = l.length + 1 := by
  induction l with
  | nil => rfl
  | cons m ms ih =>
      simp only [insertByIndex]
      split
      · simp
      · simp [ih]

theorem sortByIndex_length (l : List TFileOrSketchPartChange) :
    (sortByIndex l).length = l.length := by
  induction l with
  | nil => rfl
  | cons m ms ih =>
      simp only [sortByIndex, List.foldr_cons] at ih ⊢
      rw [insertByIndex_length, ih]
      rfl

theorem nodeShown_le (a b : TFileOrSketchPartChange) (h : nodeLE a b) :
    bLE (nodeShown a) (nodeShown b) := by
  cases a with
  | file f1 =>
      cases b with
      | file f2 => exact h.1
      | fakePart p2 => exact absurd h (by simp [nodeLE])
  | fakePart p1 =>
      cases b with
      | file f2 => exact absurd h (by simp [nodeLE])
      | fakePart p2 => exact h.2.1

theorem filter_shown_le (l1 l2 : List TFileOrSketchPartChange)
    (h : List.Forall₂ nodeLE l1 l2) :
    (l1.filter nodeShown).length ≤ (l2.filter nodeShown).length := by
  induction h with
  | nil => exact Nat.le_refl _
  | cons hab hrest ih =>
      rename_i a b l1' l2'
      simp only [List.filter_cons]
      cases hs1 : nodeShown a with
      | false =>
          cases hs2 : nodeShown b with
          | false => simpa using ih
          | true => simp only [if_true, ite_true]; exact Nat.le_succ_of_le (by simpa using ih)
      | true =>
          have hs2 : nodeShown b = true := nodeShown_le a b hab hs1
          simp only [hs2, if_true, ite_true]
          simpa using Nat.succ_le_succ ih

theorem proj_len_le (t1 t2 : NodeTable) (h : tableLE t1 t2) :
    (getOpenedFilesList t1).length ≤ (getOpenedFilesList t2).length := by
  simp only [getOpenedFilesList, sortByIndex_length]
  refine filter_shown_le _ _ ?_
  induction h with
  | nil => exact List.Forall₂.nil
  | cons hab hrest ih =>
      exact List.Forall₂.cons hab.2 ih

/-! ## A pass depends on its previous table only through the observable
`opened` values -/

theorem partCreate_congr (o1 o2 : Option NodeTable)
    (hEq : ∀ id, lookupOpenedO o1 id = lookupOpenedO o2 id) (c : Bool)
    (fs : AppFileStatus) (arr : List String) (i : Nat) (part : String)
    (st : SynthSt) :
    partCreate o1 c fs arr i part st = partCreate o2 c fs arr i part st := by
  have hco : createdOpened o1 (partIdOf arr i part) i
      = createdOpened o2 (partIdOf arr i part) i := by
    rw [createdOpened_eq, createdOpened_eq, hEq]
  simp only [partCreate, createdNode, hco]

theorem partStep_congr (o1 o2 : Option NodeTable)
    (hEq : ∀ id, lookupOpenedO o1 id = lookupOpenedO o2 id) (c : Bool)
    (fs : AppFileStatus) (pv arr : List String) (st : SynthSt)
    (ip : Nat × String) :
    partStep o1 c fs pv arr st ip = partStep o2 c fs pv arr st ip := by
  simp only [partStep]
  split
  · rfl
  · exact partCreate_congr o1 o2 hEq c fs arr ip.1 ip.2 _

theorem stepFile_congr (o1 o2 : Option NodeTable)
    (hEq : ∀ id, lookupOpenedO o1 id = lookupOpenedO o2 id) (st : SynthSt)
    (f : WorkingDirectoryFileChange) : stepFile o1 st f = stepFile o2 st f := by
  cases hp : f.parts with
  | none => simp [stepFile, hp]
  | some ps =>
      have hps : partStep o1 (f.status.kind == AppFileStatusKind.Conflicted)
            f.status st.prevParts ps
          = partStep o2 (f.status.kind == AppFileStatusKind.Conflicted)
            f.status st.prevParts ps :=
        funext fun st' => funext fun ip => partStep_congr o1 o2 hEq _ _ _ _ st' ip
      simp only [stepFile, hp]
      rw [hps]

theorem getFileList_congr (files : List WorkingDirectoryFileChange)
    (o1 o2 : Option NodeTable)
    (hEq : ∀ id, lookupOpenedO o1 id = lookupOpenedO o2 id) :
    getFileList files o1 = getFileList files o2 := by
  unfold getFileList
  have hstep : stepFile o1 = stepFile o2 :=
    funext fun st => funext fun f => stepFile_congr o1 o2 hEq st f
  rw [hstep]

/-! ## Provenance of synthesized group ids (towards idempotence) -/

theorem joinSlash_ne_empty (l : List String) (hl : l ≠ [])
    (hne : ∀ s ∈ l, s ≠ "") : joinSlash l ≠ "" := by
  cases l with
  | nil => exact absurd rfl hl
  | cons s rest =>
      cases rest with
      | nil => exact hne s (List.mem_singleton.mpr rfl)
      | cons t rest' => exact append_slash_ne_empty s _

theorem joinSlash_append_last (xs : List String) (y : String) (hxs : xs ≠ []) :
    joinSlash (xs ++ [y]) = joinSlash xs ++ "/" ++ y := by
  induction xs with
  | nil => exact absurd rfl hxs
  | cons a rest ih =>
      cases rest with
      | nil => rfl
      | cons b rest' =>
          have ih' := ih (by simp)
          show a ++ "/" ++ joinSlash ((b :: rest') ++ [y])
            = (a ++ "/" ++ joinSlash (b :: rest')) ++ "/" ++ y
          rw [ih']
          simp [String.append_assoc]

theorem take_ne_nil (arr : List String) (i : Nat) (h0 : 0 < i)
    (_hlt : i ≤ arr.length) (harr : arr ≠ []) : arr.take i ≠ [] := by
  intro hc
  rcases List.take_eq_nil_iff.mp hc with h' | h'
  · omega
  · exact harr h'

theorem partIdOf_eq_join (arr : List String) (i : Nat) (part : String)
    (hlt : i < arr.length) (hpart : arr[i]? = some part)
    (hne : ∀ s ∈ arr, s ≠ "") :
    partIdOf arr i part = joinSlash (arr.take (i + 1)) := by
  have htake : arr.take (i + 1) = arr.take i ++ [part] := by
    rw [List.take_succ, hpart]
    rfl
  rcases Nat.eq_zero_or_pos i with h0 | h0
  · subst h0
    simp only [partIdOf, List.take_zero, joinSlash, htake]
    simp [joinSlash]
  · have harr : arr ≠ [] := by
      intro hc; subst hc; simp at hlt
    have htne : arr.take i ≠ [] := take_ne_nil arr i h0 (Nat.le_of_lt hlt) harr
    have hjne : joinSlash (arr.take i) ≠ "" :=
      joinSlash_ne_empty _ htne (fun s hs => hne s (List.take_subset i arr hs))
    rw [htake, joinSlash_append_last _ _ htne]
    simp only [partIdOf]
    rw [if_pos hjne]

theorem take_mem_prefixLists (ps : List String) (i : Nat) (hlt : i < ps.length) :
    ps.take (i + 1) ∈ prefixLists ps := by
  simp only [prefixLists, List.mem_map]
  exact ⟨i, List.mem_range.mpr hlt, rfl⟩

theorem createdNode_ruleFake (o : Option NodeTable) (PL : List (List String))
    (c : Bool) (fs : AppFileStatus) (arr : List String) (i : Nat)
    (part : String) (st : SynthSt) (hlt : i < arr.length)
    (hpart : arr[i]? = some part) (hne : ∀ s ∈ arr, s ≠ "")
    (hPL : arr.take (i + 1) ∈ PL) :
    ruleFake o PL (partIdOf arr i part) (createdNode o c fs arr i part st) := by
  have htake : arr.take (i + 1) = arr.take i ++ [part] := by
    rw [List.take_succ, hpart]
    rfl
  refine ⟨rfl, ⟨arr.take (i + 1), hPL, ?_, ?_, ?_⟩, ?_⟩
  · rw [htake]; simp
  · exact partIdOf_eq_join arr i part hlt hpart hne
  · show arr.take i = (arr.take (i + 1)).dropLast
    rw [htake, List.dropLast_concat]
  · show createdOpened o (partIdOf arr i part) i
      = (lookupOpenedO o (partIdOf arr i part)).getD ((arr.take i : List String) == [])
    rw [createdOpened_eq, take_beq_nil arr i hlt]

theorem ruleFake_opened_eq (o : Option NodeTable) (PL : List (List String))
    (id : String) (p q : TFakeSketchPartChange) (hUA : unambiguousIds PL)
    (h1 : ruleFake o PL id p) (h2 : ruleFake o PL id q) :
    p.opened = q.opened := by
  obtain ⟨-, ⟨L, hLPL, -, hid, hparts⟩, hop⟩ := h1
  obtain ⟨-, ⟨L', hLPL', -, hid', hparts'⟩, hop'⟩ := h2
  have hLL : L = L' := hUA L hLPL L' hLPL' (by rw [← hid, ← hid'])
  subst hLL
  rw [hop, hop', hparts, hparts']

/-! ## The run invariant `fakeInv` is preserved by every step -/

theorem partSkip_fakeInv (o : Option NodeTable) (PL : List (List String))
    (c : Bool) (fs : AppFileStatus) (id : String) (st : SynthSt)
    (h : fakeInv o PL st) : fakeInv o PL (partSkip c fs id st) := by
  cases c with
  | false => exact h
  | true =>
      cases hm : lookupA st.acc id with
      | none => simpa [partSkip, hm] using h
      | some w =>
          cases w with
          | file g => simpa [partSkip, hm] using h
          | fakePart p0 =>
              cases hs : p0.status with
              | some s => simpa [partSkip, hm, hs] using h
              | none =>
                  have hgoal : partSkip true fs id st
                      = { st with acc := upsertA st.acc id (TFileOrSketchPartChange.fakePart { p0 with status := some fs }) } := by
                    simp [partSkip, hm, hs]
                  rw [hgoal]
                  refine ⟨h.1, ?_⟩
                  intro id' p hp
                  obtain ⟨q, hq, hqo⟩ := h.2 id' p hp
                  by_cases hkk : id = id'
                  · subst hkk
                    rw [hq] at hm
                    injection hm with hm1
                    injection hm1 with hm2
                    refine ⟨{ p0 with status := some fs }, ?_, ?_⟩
                    · show lookupA (upsertA st.acc id _) id = _
                      rw [lookupA_upsertA, if_pos rfl]
                    · subst hm2
                      exact hqo
                  · refine ⟨q, ?_, hqo⟩
                    show lookupA (upsertA st.acc id _) id' = _
                    rw [lookupA_upsertA, if_neg hkk]
                    exact hq

theorem partCreate_fakeInv (o : Option NodeTable) (PL : List (List String))
    (c : Bool) (fs : AppFileStatus) (arr : List String) (i : Nat)
    (part : String) (st : SynthSt) (hlt : i < arr.length)
    (hpart : arr[i]? = some part) (hne : ∀ s ∈ arr, s ≠ "")
    (hPL : arr.take (i + 1) ∈ PL) (h : fakeInv o PL st) :
    fakeInv o PL (partCreate o c fs arr i part st) := by
  constructor
  · intro id' p hp
    replace hp : lookupA (upsertA st.fakePartsAcc (partIdOf arr i part)
        (createdNode o c fs arr i part st)) id' = some p := hp
    rw [lookupA_upsertA] at hp
    by_cases hk : partIdOf arr i part = id'
    · rw [if_pos hk] at hp
      injection hp with hp1
      subst hp1
      exact hk ▸ createdNode_ruleFake o PL c fs arr i part st hlt hpart hne hPL
    · rw [if_neg hk] at hp
      exact h.1 id' p hp
  · intro id' p hp
    replace hp : lookupA (upsertA st.fakePartsAcc (partIdOf arr i part)
        (createdNode o c fs arr i part st)) id' = some p := hp
    rw [lookupA_upsertA] at hp
    by_cases hk : partIdOf arr i part = id'
    · rw [if_pos hk] at hp
      injection hp with hp1
      subst hp1
      refine ⟨createdNode o c fs arr i part st, ?_, rfl⟩
      show lookupA (upsertA st.acc (partIdOf arr i part) _) id' = _
      rw [lookupA_upsertA, if_pos hk]
    · rw [if_neg hk] at hp
      obtain ⟨q, hq, hqo⟩ := h.2 id' p hp
      refine ⟨q, ?_, hqo⟩
      show lookupA (upsertA st.acc (partIdOf arr i part) _) id' = _
      rw [lookupA_upsertA, if_neg hk]
      exact hq

theorem partStep_fakeInv (o : Option NodeTable) (PL : List (List String))
    (c : Bool) (fs : AppFileStatus) (pv arr : List String) (st : SynthSt)
    (ip : Nat × String) (hlt : ip.1 < arr.length)
    (hpart : arr[ip.1]? = some ip.2) (hne : ∀ s ∈ arr, s ≠ "")
    (hPL : arr.take (ip.1 + 1) ∈ PL) (h : fakeInv o PL st) :
    fakeInv o PL (partStep o c fs pv arr st ip) := by
  have hreset : fakeInv o PL (if ip.1 ≤ 1 then { st with parentPartChange := none } else st) := by
    split <;> exact h
  simp only [partStep]
  split
  · exact partSkip_fakeInv o PL c fs _ _ hreset
  · exact partCreate_fakeInv o PL c fs arr ip.1 ip.2 _ hlt hpart hne hPL hreset

theorem fileInsert_fakeInv (o : Option NodeTable) (PL : List (List String))
    (st : SynthSt) (fid : String) (v : WorkingDirectoryFileChange)
    (hid : ∀ L ∈ PL, fid ≠ joinSlash L) (h : fakeInv o PL st) :
    (∀ id p, lookupA st.fakePartsAcc id = some p → ruleFake o PL id p)
      ∧ (∀ id p, lookupA st.fakePartsAcc id = some p →
          ∃ q, lookupA (upsertA st.acc fid (TFileOrSketchPartChange.file v)) id
            = some (TFileOrSketchPartChange.fakePart q) ∧ q.opened = p.opened) := by
  refine ⟨h.1, ?_⟩
  intro id p hp
  obtain ⟨q, hq, hqo⟩ := h.2 id p hp
  obtain ⟨-, ⟨L, hLPL, -, hidL, -⟩, -⟩ := h.1 id p hp
  have hne : fid ≠ id := by
    rw [hidL]
    exact hid L hLPL
  refine ⟨q, ?_, hqo⟩
  rw [lookupA_upsertA, if_neg hne]
  exact hq

theorem plainInsert_fakeInv (o : Option NodeTable) (PL : List (List String))
    (st : SynthSt) (f : WorkingDirectoryFileChange)
    (hid : ∀ L ∈ PL, f.id ≠ joinSlash L) (h : fakeInv o PL st) :
    fakeInv o PL (plainInsert st f) :=
  fileInsert_fakeInv o PL st f.id _ hid h

theorem sketchFileInsert_fakeInv (o : Option NodeTable) (PL : List (List String))
    (ps : List String) (f : WorkingDirectoryFileChange) (st1 : SynthSt)
    (hid : ∀ L ∈ PL, f.id ≠ joinSlash L) (h : fakeInv o PL st1) :
    fakeInv o PL (sketchFileInsert ps f st1) :=
  fileInsert_fakeInv o PL st1 f.id _ hid h

theorem stepFile_fakeInv (o : Option NodeTable) (PL : List (List String))
    (st : SynthSt) (f : WorkingDirectoryFileChange) (hvf : validFile PL f)
    (h : fakeInv o PL st) : fakeInv o PL (stepFile o st f) := by
  have hmain : ∀ st' : SynthSt, fakeInv o PL st'
      → fakeInv o PL { st' with prevParts := f.parts.getD [] } :=
    fun st' h' => h'
  obtain ⟨hne, hPL, hid⟩ := hvf
  simp only [stepFile]
  apply hmain
  cases hp : f.parts with
  | none => exact plainInsert_fakeInv o PL st f hid h
  | some ps =>
      rw [hp] at hne hPL
      cases hsk : f.sketchFile with
      | false =>
          simp only [hsk, Bool.false_eq_true, if_false, ite_false]
          exact plainInsert_fakeInv o PL st f hid h
      | true =>
          simp only [hsk, if_true, ite_true]
          split
          · exact plainInsert_fakeInv o PL st f hid h
          · refine sketchFileInsert_fakeInv o PL ps f _ hid ?_
            refine foldl_preserve_mem
              (fun ip => ip.1 < ps.length ∧ ps[ip.1]? = some ip.2) ps.enum
              (fun ip hip => ?_)
              (fun a ip hq ha => partStep_fakeInv o PL _ f.status st.prevParts ps
                a ip hq.1 hq.2 (by simpa using hne)
                (hPL _ (take_mem_prefixLists ps ip.1 hq.1)) ha)
              st h
            have hm := List.mem_enum_iff_getElem?.mp hip
            exact ⟨(List.getElem?_eq_some.mp hm).1, hm⟩

theorem partsFold_fakeInv (o : Option NodeTable) (PL : List (List String))
    (c : Bool) (fs : AppFileStatus) (pv ps : List String)
    (hne : ∀ s ∈ ps, s ≠ "") (hPL : ∀ L ∈ prefixLists ps, L ∈ PL)
    (l : List (Nat × String)) (hl : ∀ ip ∈ l, ip.1 < ps.length ∧ ps[ip.1]? = some ip.2)
    (st : SynthSt) (h : fakeInv o PL st) :
    fakeInv o PL (l.foldl (partStep o c fs pv ps) st) := by
  refine foldl_preserve_mem
    (fun ip => ip.1 < ps.length ∧ ps[ip.1]? = some ip.2) l hl
    (fun a ip hq ha => partStep_fakeInv o PL c fs pv ps a ip hq.1 hq.2 hne
      (hPL _ (take_mem_prefixLists ps ip.1 hq.1)) ha)
    st h

theorem filesFold_fakeInv (o : Option NodeTable) (PL : List (List String))
    (fs : List WorkingDirectoryFileChange) (hfs : ∀ f ∈ fs, validFile PL f)
    (st : SynthSt) (h : fakeInv o PL st) :
    fakeInv o PL (fs.foldl (stepFile o) st) :=
  foldl_preserve_mem (validFile PL) fs hfs
    (fun a f hq ha => stepFile_fakeInv o PL a f hq ha) st h

/-! ## Membership in `fakePartsAcc` persists along the fold -/

theorem partSkip_fakeParts (c : Bool) (fs : AppFileStatus) (id : String)
    (st : SynthSt) : (partSkip c fs id st).fakePartsAcc = st.fakePartsAcc := by
  simp only [partSkip]
  repeat' split
  all_goals rfl

theorem partCreate_fakeParts (o : Option NodeTable) (c : Bool)
    (fs : AppFileStatus) (arr : List String) (i : Nat) (part : String)
    (st : SynthSt) :
    (partCreate o c fs arr i part st).fakePartsAcc
      = upsertA st.fakePartsAcc (partIdOf arr i part)
          (createdNode o c fs arr i part st) := rfl

theorem partStep_fakeMem (o : Option NodeTable) (c : Bool)
    (fs : AppFileStatus) (pv arr : List String) (st : SynthSt)
    (ip : Nat × String) (id : String) (p : TFakeSketchPartChange)
    (hp : lookupA st.fakePartsAcc id = some p) :
    ∃ p', lookupA (partStep o c fs pv arr st ip).fakePartsAcc id = some p' := by
  have hreset : lookupA (if ip.1 ≤ 1 then { st with parentPartChange := none } else st).fakePartsAcc id = some p := by
    split <;> exact hp
  simp only [partStep]
  split
  · rw [partSkip_fakeParts]
    exact ⟨p, hreset⟩
  · rw [partCreate_fakeParts, lookupA_upsertA]
    by_cases hk : partIdOf arr ip.1 ip.2 = id
    · rw [if_pos hk]; exact ⟨_, rfl⟩
    · rw [if_neg hk]; exact ⟨p, hreset⟩

theorem partsFold_fakeMem (o : Option NodeTable) (c : Bool)
    (fs : AppFileStatus) (pv arr : List String) :
    ∀ (l : List (Nat × String)) (st : SynthSt) (id : String)
      (p : TFakeSketchPartChange),
      lookupA st.fakePartsAcc id = some p →
      ∃ p', lookupA ((l.foldl (partStep o c fs pv arr) st)).fakePartsAcc id = some p' := by
  intro l
  induction l with
  | nil => exact fun st id p hp => ⟨p, hp⟩
  | cons x xs ih =>
      intro st id p hp
      obtain ⟨p', hp'⟩ := partStep_fakeMem o c fs pv arr st x id p hp
      exact ih _ id p' hp'

theorem stepFile_fakeMem (o : Option NodeTable) (st : SynthSt)
    (f : WorkingDirectoryFileChange) (id : String) (p : TFakeSketchPartChange)
    (hp : lookupA st.fakePartsAcc id = some p) :
    ∃ p', lookupA (stepFile o st f).fakePartsAcc id = some p' := by
  simp only [stepFile]
  cases f.parts with
  | none => exact ⟨p, hp⟩
  | some ps =>
      cases hsk : f.sketchFile with
      | false =>
          simp only [hsk, Bool.false_eq_true, if_false, ite_false]
          exact ⟨p, hp⟩
      | true =>
          simp only [hsk, if_true, ite_true]
          split
          · exact ⟨p, hp⟩
          · exact partsFold_fakeMem o _ f.status st.prevParts ps ps.enum st id p hp

theorem filesFold_fakeMem (o : Option NodeTable) :
    ∀ (fs : List WorkingDirectoryFileChange) (st : SynthSt) (id : String)
      (p : TFakeSketchPartChange),
      lookupA st.fakePartsAcc id = some p →
      ∃ p', lookupA ((fs.foldl (stepFile o) st)).fakePartsAcc id = some p' := by
  intro fs
  induction fs with
  | nil => exact fun st id p hp => ⟨p, hp⟩
  | cons f rest ih =>
      intro st id p hp
      obtain ⟨p', hp'⟩ := stepFile_fakeMem o st f id p hp
      exact ih _ id p' hp'

/-! ## Idempotence: re-synthesizing against a pass's own output changes
nothing -/

theorem lookupOpenedO_some_fake (t : NodeTable) (id : String)
    (q : TFakeSketchPartChange)
    (hq : lookupA t id = some (TFileOrSketchPartChange.fakePart q)) :
    lookupOpenedO (some t) id = some q.opened := by
  simp [lookupOpenedO, hq]

theorem partCreate_congr_at (o1 o2 : Option NodeTable) (c : Bool)
    (fs : AppFileStatus) (arr : List String) (i : Nat) (part : String)
    (st : SynthSt)
    (hco : createdOpened o1 (partIdOf arr i part) i
      = createdOpened o2 (partIdOf arr i part) i) :
    partCreate o1 c fs arr i part st = partCreate o2 c fs arr i part st := by
  simp only [partCreate, createdNode, hco]

theorem partsFold_idem (tblAcc : NodeTable) (o2 : Option NodeTable)
    (PL : List (List String)) (hUA : unambiguousIds PL) (c : Bool)
    (fs : AppFileStatus) (pv arr : List String)
    (hne : ∀ s ∈ arr, s ≠ "") (hPLarr : ∀ L ∈ prefixLists arr, L ∈ PL) :
    ∀ (l : List (Nat × String)) (st : SynthSt),
      (∀ ip ∈ l, ip.1 < arr.length ∧ arr[ip.1]? = some ip.2) →
      fakeInv o2 PL st →
      (∀ id p, lookupA ((l.foldl (partStep o2 c fs pv arr) st)).fakePartsAcc id = some p
        → lookupOpenedO (some tblAcc) id = some p.opened) →
      l.foldl (partStep (some tblAcc) c fs pv arr) st
        = l.foldl (partStep o2 c fs pv arr) st := by
  intro l
  induction l with
  | nil => intro st _ _ _; rfl
  | cons ip rest ih =>
      intro st hl hInv hFin
      rw [List.foldl_cons] at hFin ⊢
      rw [List.foldl_cons]
      have hip := hl ip (List.mem_cons_self ip rest)
      have hInv2 : fakeInv o2 PL (partStep o2 c fs pv arr st ip) :=
        partStep_fakeInv o2 PL c fs pv arr st ip hip.1 hip.2 hne
          (hPLarr _ (take_mem_prefixLists arr ip.1 hip.1)) hInv
      have hstepEq : partStep (some tblAcc) c fs pv arr st ip
          = partStep o2 c fs pv arr st ip := by
        by_cases hskip : pv.get? ip.1 = some ip.2
        · simp only [partStep, if_pos hskip]
        · have hmem2 : lookupA (partStep o2 c fs pv arr st ip).fakePartsAcc
              (partIdOf arr ip.1 ip.2)
              = some (createdNode o2 c fs arr ip.1 ip.2
                (if ip.1 ≤ 1 then { st with parentPartChange := none } else st)) := by
            simp only [partStep, if_neg hskip, partCreate_fakeParts,
              lookupA_upsertA, if_pos]
          obtain ⟨p', hp'⟩ := partsFold_fakeMem o2 c fs pv arr rest _ _ _ hmem2
          have hrule' : ruleFake o2 PL (partIdOf arr ip.1 ip.2) p' :=
            (partsFold_fakeInv o2 PL c fs pv arr hne hPLarr rest
              (fun x hx => hl x (List.mem_cons_of_mem ip hx)) _ hInv2).1 _ p' hp'
          have hrule2 : ruleFake o2 PL (partIdOf arr ip.1 ip.2)
              (createdNode o2 c fs arr ip.1 ip.2
                (if ip.1 ≤ 1 then { st with parentPartChange := none } else st)) :=
            createdNode_ruleFake o2 PL c fs arr ip.1 ip.2 _ hip.1 hip.2 hne
              (hPLarr _ (take_mem_prefixLists arr ip.1 hip.1))
          have hope := ruleFake_opened_eq o2 PL _ _ _ hUA hrule2 hrule'
          have hfinEq := hFin _ p' hp'
          have hco : createdOpened (some tblAcc) (partIdOf arr ip.1 ip.2) ip.1
              = createdOpened o2 (partIdOf arr ip.1 ip.2) ip.1 := by
            rw [createdOpened_eq, hfinEq, Option.getD_some, ← hope]
            rfl
          simp only [partStep, if_neg hskip]
          exact partCreate_congr_at (some tblAcc) o2 c fs arr ip.1 ip.2 _ hco
      rw [hstepEq]
      exact ih (partStep o2 c fs pv arr st ip)
        (fun x hx => hl x (List.mem_cons_of_mem ip hx)) hInv2 hFin

theorem stepFile_idem_at (tblAcc : NodeTable) (o2 : Option NodeTable)
    (PL : List (List String)) (hUA : unambiguousIds PL) (st : SynthSt)
    (f : WorkingDirectoryFileChange) (hvf : validFile PL f)
    (hInv : fakeInv o2 PL st)
    (hFinStep : ∀ id p, lookupA ((stepFile o2 st f)).fakePartsAcc id = some p
      → lookupOpenedO (some tblAcc) id = some p.opened) :
    stepFile (some tblAcc) st f = stepFile o2 st f := by
  obtain ⟨hne, hPL, hid⟩ := hvf
  cases hp : f.parts with
  | none => simp only [stepFile, hp]
  | some ps =>
      rw [hp] at hne hPL
      cases hsk : f.sketchFile with
      | false => simp only [stepFile, hp, hsk, Bool.false_eq_true, if_false, ite_false]
      | true =>
          by_cases hspecial : (ps.length == 1 && (ps.headD "" ++ "/") == f.path) = true
          · simp only [stepFile, hp, hsk, if_true, ite_true, hspecial]
          · have hFinInner : ∀ id p,
                lookupA ((ps.enum.foldl (partStep o2 (f.status.kind == AppFileStatusKind.Conflicted) f.status st.prevParts ps) st)).fakePartsAcc id = some p
                → lookupOpenedO (some tblAcc) id = some p.opened := by
              intro id p hp'
              refine hFinStep id p ?_
              simp only [stepFile, hp, hsk, if_true, ite_true, hspecial,
                Bool.false_eq_true, if_false, ite_false]
              exact hp'
            have hinner := partsFold_idem tblAcc o2 PL hUA
              (f.status.kind == AppFileStatusKind.Conflicted) f.status
              st.prevParts ps (by simpa using hne) hPL ps.enum st
              (fun ip hip => by
                have hm := List.mem_enum_iff_getElem?.mp hip
                exact ⟨(List.getElem?_eq_some.mp hm).1, hm⟩)
              hInv hFinInner
            simp only [stepFile, hp, hsk, if_true, ite_true, hspecial,
              Bool.false_eq_true, if_false, ite_false]
            rw [hinner]

theorem filesFold_idem (tblAcc : NodeTable) (o2 : Option NodeTable)
    (PL : List (List String)) (hUA : unambiguousIds PL) :
    ∀ (fls : List WorkingDirectoryFileChange) (st : SynthSt),
      (∀ f ∈ fls, validFile PL f) →
      fakeInv o2 PL st →
      (∀ id p, lookupA ((fls.foldl (stepFile o2) st)).fakePartsAcc id = some p
        → lookupOpenedO (some tblAcc) id = some p.opened) →
      fls.foldl (stepFile (some tblAcc)) st = fls.foldl (stepFile o2) st := by
  intro fls
  induction fls with
  | nil => intro st _ _ _; rfl
  | cons f rest ih =>
      intro st hfs hInv hFin
      rw [List.foldl_cons] at hFin ⊢
      rw [List.foldl_cons]
      have hvf := hfs f (List.mem_cons_self f rest)
      have hInv2 : fakeInv o2 PL (stepFile o2 st f) :=
        stepFile_fakeInv o2 PL st f hvf hInv
      have hFinStep : ∀ id p, lookupA ((stepFile o2 st f)).fakePartsAcc id = some p
          → lookupOpenedO (some tblAcc) id = some p.opened := by
        intro id p hp
        obtain ⟨p', hp'⟩ := filesFold_fakeMem o2 rest _ id p hp
        have hrule : ruleFake o2 PL id p := hInv2.1 id p hp
        have hrule' : ruleFake o2 PL id p' :=
          (filesFold_fakeInv o2 PL rest
            (fun x hx => hfs x (List.mem_cons_of_mem f hx)) _ hInv2).1 id p' hp'
        have hope := ruleFake_opened_eq o2 PL id p p' hUA hrule hrule'
        rw [hFin id p' hp', hope]
      have hstepEq := stepFile_idem_at tblAcc o2 PL hUA st f hvf hInv hFinStep
      rw [hstepEq]
      exact ih (stepFile o2 st f)
        (fun x hx => hfs x (List.mem_cons_of_mem f hx)) hInv2 hFin

/-- Re-running `getFileList` over the same change list with its own output
table as the previous table reproduces that output exactly (for well-formed,
unambiguous part paths whose group ids do not collide with file ids). -/
theorem getFileList_idem (wd : List WorkingDirectoryFileChange)
    (old : Option NodeTable) (hUA : unambiguousIds (allPrefixLists wd))
    (hvf : ∀ f ∈ wd, validFile (allPrefixLists wd) f) :
    getFileList wd (some ((getFileList wd old).acc)) = getFileList wd old := by
  have hInit : fakeInv old (allPrefixLists wd) initialSynthSt := by
    constructor
    · intro id p hp
      simp [initialSynthSt, lookupA] at hp
    · intro id p hp
      simp [initialSynthSt, lookupA] at hp
  have hInvFin : fakeInv old (allPrefixLists wd) (getFileList wd old) :=
    filesFold_fakeInv old (allPrefixLists wd) wd hvf initialSynthSt hInit
  refine filesFold_idem ((getFileList wd old).acc) old (allPrefixLists wd) hUA
    wd initialSynthSt hvf hInit ?_
  intro id p hp
  obtain ⟨q, hq, hqo⟩ := hInvFin.2 id p hp
  rw [lookupOpenedO_some_fake _ id q hq, hqo]

/-! ## Claim C8: collapsing and re-expanding a group -/

theorem optLE_bLE_refl (x : Option Bool) : optLE bLE x x := by
  cases x with
  | none => trivial
  | some b => exact bLE_refl b

/-- Claim C8, counterexample: in `exDeepTable` every group is expanded and
all four nodes are visible; toggling the expanded group `a/b` closed leaves
the projection at four rows (its child `a/b/c` stays visible through its own
`opened` flag), so the projected sequence is not strictly shorter than
before. -/
theorem C8_counterexample :
    lookupA exDeepTable "a/b" = some (TFileOrSketchPartChange.fakePart
        { opened := true, shown := true, index := 1, type := FileType.PageFile,
          id := "a/b", parts := ["a"], name := "b", status := none })
      ∧ (getOpenedFilesList exDeepTable).length = 4
      ∧ (onOpenChanged exDeepTable [exFileABC] "a/b" false).map
          (fun t => (getOpenedFilesList t).length) = some 4 := by
  exact ⟨by decide, by decide, by decide⟩

/-- Claim C8, amended: for a controller table that is the output of a
synthesis pass over the current change list (with well-formed, unambiguous
part paths and no file/group id collisions), toggling a group closed yields
a projected sequence that is never longer than before — but not necessarily
strictly shorter, as the counterexample shows — and, when the group was
expanded, toggling it back open with the change list unchanged restores
exactly the prior table and hence the prior projected sequence, row for
row. -/
theorem C8_amended (wd : List WorkingDirectoryFileChange)
    (old : Option NodeTable) (tbl : NodeTable) (g : String)
    (p : TFakeSketchPartChange)
    (hUA : unambiguousIds (allPrefixLists wd))
    (hvf : ∀ f ∈ wd, validFile (allPrefixLists wd) f)
    (htbl : tbl = (getFileList wd old).acc)
    (hg : lookupA tbl g = some (TFileOrSketchPartChange.fakePart p)) :
    (∀ t', onOpenChanged tbl wd g false = some t'
      → (getOpenedFilesList t').length ≤ (getOpenedFilesList tbl).length)
    ∧ (p.opened = true →
        ∀ t' t'', onOpenChanged tbl wd g false = some t'
          → onOpenChanged t' wd g true = some t''
          → t'' = tbl ∧ getOpenedFilesList t'' = getOpenedFilesList tbl) := by
  have hidem : getFileList wd (some tbl) = getFileList wd old := by
    rw [htbl]
    exact getFileList_idem wd old hUA hvf
  have haccEq : (getFileList wd (some tbl)).acc = tbl := by
    rw [hidem, ← htbl]
  have hle : oldLE
      (some (upsertA tbl g (TFileOrSketchPartChange.fakePart { p with opened := false })))
      (some tbl) := by
    intro id
    by_cases hgid : g = id
    · subst hgid
      have h1 : lookupOpenedO
          (some (upsertA tbl g (TFileOrSketchPartChange.fakePart { p with opened := false }))) g
          = some false := by
        simp [lookupOpenedO, lookupA_upsertA]
      have h2 : lookupOpenedO (some tbl) g = some p.opened := by
        simp [lookupOpenedO, hg]
      rw [h1, h2]
      exact fun hx => absurd hx (by decide)
    · have heq : lookupOpenedO
          (some (upsertA tbl g (TFileOrSketchPartChange.fakePart { p with opened := false }))) id
          = lookupOpenedO (some tbl) id := by
        simp [lookupOpenedO, lookupA_upsertA, hgid]
      rw [heq]
      exact optLE_bLE_refl _
  have hLE := getFileList_le wd
    (some (upsertA tbl g (TFileOrSketchPartChange.fakePart { p with opened := false })))
    (some tbl) hle
  have hrel : tableLE
      ((getFileList wd (some (upsertA tbl g (TFileOrSketchPartChange.fakePart { p with opened := false })))).acc)
      tbl := by
    have h0 := hLE.1
    rw [haccEq] at h0
    exact h0
  constructor
  · intro t' ht'
    simp only [onOpenChanged, hg, Option.some.injEq] at ht'
    subst ht'
    exact proj_len_le _ _ hrel
  · intro hop t' t'' ht' ht''
    simp only [onOpenChanged, hg, Option.some.injEq] at ht'
    subst ht'
    have hq := lookupA_tableLE _ _ hrel g
    rw [hg] at hq
    cases hmc : lookupA ((getFileList wd (some (upsertA tbl g (TFileOrSketchPartChange.fakePart { p with opened := false })))).acc) g with
    | none => rw [hmc] at hq; exact absurd hq (by simp [optLE])
    | some w =>
        rw [hmc] at hq
        cases w with
        | file f0 => exact absurd hq (by simp [optLE, nodeLE])
        | fakePart q =>
            simp only [onOpenChanged, hmc, Option.some.injEq] at ht''
            have hEq : ∀ id,
                lookupOpenedO (some (upsertA ((getFileList wd (some (upsertA tbl g (TFileOrSketchPartChange.fakePart { p with opened := false })))).acc) g (TFileOrSketchPartChange.fakePart { q with opened := true }))) id
                  = lookupOpenedO (some tbl) id := by
              intro id
              by_cases hgid : g = id
              · subst hgid
                have h1 : lookupOpenedO (some (upsertA ((getFileList wd (some (upsertA tbl g (TFileOrSketchPartChange.fakePart { p with opened := false })))).acc) g (TFileOrSketchPartChange.fakePart { q with opened := true }))) g = some true := by
                  simp [lookupOpenedO, lookupA_upsertA]
                have h2 : lookupOpenedO (some tbl) g = some p.opened := by
                  simp [lookupOpenedO, hg]
                rw [h1, h2, hop]
              · have h1 : lookupOpenedO (some (upsertA ((getFileList wd (some (upsertA tbl g (TFileOrSketchPartChange.fakePart { p with opened := false })))).acc) g (TFileOrSketchPartChange.fakePart { q with opened := true }))) id
                    = lookupOpenedO (some ((getFileList wd (some (upsertA tbl g (TFileOrSketchPartChange.fakePart { p with opened := false })))).acc)) id := by
                  simp [lookupOpenedO, lookupA_upsertA, hgid]
                rw [h1]
                have hq2 := lookupA_tableLE _ _ hrel id
                cases hm1 : lookupA ((getFileList wd (some (upsertA tbl g (TFileOrSketchPartChange.fakePart { p with opened := false })))).acc) id with
                | none =>
                    cases hm2 : lookupA tbl id with
                    | none => simp [lookupOpenedO, hm1, hm2]
                    | some w2 =>
                        rw [hm1, hm2] at hq2
                        exact absurd hq2 (by simp [optLE])
                | some w1 =>
                    cases hm2 : lookupA tbl id with
                    | none =>
                        rw [hm1, hm2] at hq2
                        exact absurd hq2 (by simp [optLE])
                    | some w2 =>
                        rw [hm1, hm2] at hq2
                        cases w1 with
                        | file f1 =>
                            cases w2 with
                            | file f2 => simp [lookupOpenedO, hm1, hm2]
                            | fakePart p2 => exact absurd hq2 (by simp [optLE, nodeLE])
                        | fakePart p1 =>
                            cases w2 with
                            | file f2 => exact absurd hq2 (by simp [optLE, nodeLE])
                            | fakePart p2 =>
                                have hr := getFileList_openedRule wd
                                  (some (upsertA tbl g (TFileOrSketchPartChange.fakePart { p with opened := false })))
                                  id p1 hm1
                                simp only [openedRule, Option.bind] at hr
                                rw [lookupA_upsertA, if_neg hgid, hm2] at hr
                                simp [lookupOpenedO, hm1, hm2, hr]
            have hre : getFileList wd (some (upsertA ((getFileList wd (some (upsertA tbl g (TFileOrSketchPartChange.fakePart { p with opened := false })))).acc) g (TFileOrSketchPartChange.fakePart { q with opened := true })))
                = getFileList wd (some tbl) :=
              getFileList_congr wd _ _ hEq
            have ht2 : t'' = tbl := by
              rw [← ht'', hre, haccEq]
            exact ⟨ht2, by rw [ht2]⟩

/-- Witness for `C8_amended`: collapsing the expanded group `a/b` of
`exDeepTable` does not lengthen the projection. -/
theorem C8_amended_witness :
    (getOpenedFilesList ((onOpenChanged exDeepTable [exFileABC] "a/b" false).getD [])).length
      ≤ (getOpenedFilesList exDeepTable).length :=
  (C8_amended [exFileABC] (some exOldDeepOpen) exDeepTable "a/b"
    { opened := true, shown := true, index := 1, type := FileType.PageFile,
      id := "a/b", parts := ["a"], name := "b", status := none }
    (by decide) (by decide) rfl (by decide)).1 _ (by decide)

/-- Claim C9: in the skip-if-unchanged branch (the current segment equals the
previous change's segment at the same position), a Conflicted change attaches
its status to the already-synthesized group only when that group has no
status yet.  Stated in three parts: (a) when the group at the skip id already
carries a status, the step leaves the table untouched (so a later conflicted
child never overwrites it); (b) when it carries none and the change is
Conflicted, the step records exactly the change's status; (c) end to end,
with one non-conflicted and then two conflicted children under group `a`,
the group ends up with the first conflicted child's status payload `d1`,
whatever the second child's payload `d2` is. -/
theorem C9_first_conflict_wins :
    (∀ (o : Option NodeTable) (c : Bool) (fs : AppFileStatus)
      (pv arr : List String) (st : SynthSt) (i : Nat) (part : String)
      (p : TFakeSketchPartChange) (s : AppFileStatus),
      pv.get? i = some part
      → lookupA st.acc (partIdOf arr i part)
          = some (TFileOrSketchPartChange.fakePart p)
      → p.status = some s
      → (partStep o c fs pv arr st (i, part)).acc = st.acc)
    ∧ (∀ (o : Option NodeTable) (fs : AppFileStatus)
      (pv arr : List String) (st : SynthSt) (i : Nat) (part : String)
      (p : TFakeSketchPartChange),
      pv.get? i = some part
      → lookupA st.acc (partIdOf arr i part)
          = some (TFileOrSketchPartChange.fakePart p)
      → p.status = none
      → (partStep o true fs pv arr st (i, part)).acc
          = upsertA st.acc (partIdOf arr i part)
              (TFileOrSketchPartChange.fakePart { p with status := some fs }))
    ∧ (∀ d1 d2 : Nat,
      lookupA (getFileList [exConfF0, exConfF1 d1, exConfF2 d2] none).acc "a"
        = some (TFileOrSketchPartChange.fakePart
            { opened := true, shown := true, index := 0,
              type := FileType.SketchFile, id := "a", parts := [], name := "a",
              status := some { kind := AppFileStatusKind.Conflicted, data := d1 } })) := by
  refine ⟨?_, ?_, ?_⟩
  · intro o c fs pv arr st i part p s h1 h2 h3
    simp only [List.get?_eq_getElem?] at h1
    by_cases hi : i ≤ 1 <;> cases c <;> simp [partStep, partSkip, hi, h1, h2, h3]
  · intro o fs pv arr st i part p h1 h2 h3
    simp only [List.get?_eq_getElem?] at h1
    by_cases hi : i ≤ 1 <;> simp [partStep, partSkip, hi, h1, h2, h3]
  · intro d1 d2
    rfl

/-- Witness for `C9_first_conflict_wins`: part (a) applied at a concrete
state whose group `a` already carries a conflict status — the step changes
nothing. -/
theorem C9_first_conflict_wins_witness :
    (partStep none true { kind := AppFileStatusKind.Conflicted, data := 7 }
        ["a"] ["a", "z"]
        { acc := [("a", TFileOrSketchPartChange.fakePart
            { opened := true, shown := true, index := 0,
              type := FileType.SketchFile, id := "a", parts := [], name := "a",
              status := some { kind := AppFileStatusKind.Conflicted, data := 1 } })],
          fakePartsAcc := [], parentPartChange := none, index := 1,
          rfiles := [], prevParts := ["a"] }
        (0, "a")).acc
      = [("a", TFileOrSketchPartChange.fakePart
          { opened := true, shown := true, index := 0,
            type := FileType.SketchFile, id := "a", parts := [], name := "a",
            status := some { kind := AppFileStatusKind.Conflicted, data := 1 } })] :=
  C9_first_conflict_wins.1 none true
    { kind := AppFileStatusKind.Conflicted, data := 7 } ["a"] ["a", "z"]
    _ 0 "a"
    { opened := true, shown := true, index := 0,
      type := FileType.SketchFile, id := "a", parts := [], name := "a",
      status := some { kind := AppFileStatusKind.Conflicted, data := 1 } }
    { kind := AppFileStatusKind.Conflicted, data := 1 }
    (by decide) (by decide) (by decide)

end Kactus
